import Mathlib

/-!
# ByteLog static site generator: `generate.js`

A shallow embedding of the generation pipeline of `src/generate.js`
(slug derivation, image pipeline, pagination planner, date sort and the
run-level control flow of `main`), followed by theorems about it.

JavaScript strings are sequences of UTF-16 code units and are embedded as
lists of natural numbers, one per code unit.  Library functions of the
JavaScript runtime and of Node (`String.prototype.toLowerCase`, `path.join`,
`fs.existsSync`, `marked`, `sharp`, ...) are not part of the repository; they
enter the embedding as fields of a `Runtime` record, so that the general
results hold for all behaviours of those functions.
-/

namespace ByteLog

/-! ## Strings -/

/-- A JavaScript string: its UTF-16 code units in order. -/
abbrev Str := List Nat

/-- The UTF-16 code units of one Unicode scalar value. -/
def utf16Char (c : Char) : Str :=
  if c.toNat < 65536 then [c.toNat]
  else [55296 + (c.toNat - 65536) / 1024, 56320 + (c.toNat - 65536) % 1024]

/-- The JavaScript string denoted by a string literal. -/
def utf16 (s : String) : Str :=
  s.toList.flatMap utf16Char

/-- Code unit of `-`. -/
def hyphen : Nat := 45

/-- The class `[0-9]`. -/
def isDigit (c : Nat) : Bool := 48 ≤ c && c ≤ 57

/-- The class `[a-z]`. -/
def isLower (c : Nat) : Bool := 97 ≤ c && c ≤ 122

/-- The class `[A-Z]`. -/
def isUpper (c : Nat) : Bool := 65 ≤ c && c ≤ 90

/-- The class `[a-z0-9]` of a regular expression without the `i` flag. -/
def isLowerAlnum (c : Nat) : Bool := isLower c || isDigit c

/-- The class `[a-z0-9]` of a regular expression with the `i` flag (and
without the `u` flag): case folding of a non-Unicode pattern never maps a
code unit above 127 to an ASCII letter, so the class is `[a-zA-Z0-9]`. -/
def isAlnumIgnoreCase (c : Nat) : Bool := isLower c || isUpper c || isDigit c

/-- The effect of `toLowerCase` on one ASCII code unit. -/
def asciiLowerUnit (c : Nat) : Nat := if isUpper c then c + 32 else c

/-- The effect of `String.prototype.toLowerCase` on a string of ASCII code
units; used where a concrete runtime is needed to evaluate an example. -/
def asciiLower (s : Str) : Str := s.map asciiLowerUnit

/-- A string all of whose code units are ASCII. -/
def IsAscii (s : Str) : Prop := ∀ c ∈ s, c < 128

/-! ## Global regular-expression replacement

`String.prototype.replace` with a `g` pattern scans the subject from left to
right: at each index it tries the pattern; on a match the replacement is
emitted and the scan resumes at the end of the match, otherwise the code unit
is copied and the scan resumes at the next index.  None of the patterns of
`generate.js` matches the empty string. -/

/-- One piece of a scanned subject: a copied code unit or a match. -/
inductive Piece (μ : Type) where
  | lit (c : Nat)
  | hit (m : μ)

/-- A pattern, given by its match attempt at the head of the remaining
subject: `atStart` tells whether the head is index 0 of the subject; the result
is the match data and the subject remaining after the match. -/
abbrev Pattern (μ : Type) := Bool → Str → Option (μ × Str)

/-- Left-to-right scan of a subject against a pattern (`fuel` bounds the number
of steps; `scan` supplies the length of the subject, which always suffices). -/
def scanAux {μ : Type} (p : Pattern μ) : Nat → Bool → Str → List (Piece μ)
  | _, _, [] => []
  | 0, _, c :: cs => (c :: cs).map Piece.lit
  | fuel + 1, atStart, c :: cs =>
    match p atStart (c :: cs) with
    | some (m, rest) => Piece.hit m :: scanAux p fuel false rest
    | none => Piece.lit c :: scanAux p fuel false cs

/-- The pieces of a subject under a global pattern. -/
def scan {μ : Type} (p : Pattern μ) (s : Str) : List (Piece μ) :=
  scanAux p s.length true s

/-- Text of a piece under a replacement function. -/
def Piece.render {μ : Type} (f : μ → Str) : Piece μ → Str
  | Piece.lit c => [c]
  | Piece.hit m => f m

/-- The call `s.replace(pattern, f)` for a global pattern and a replacement that
does not depend on state. -/
def replaceAll {μ : Type} (p : Pattern μ) (f : μ → Str) (s : Str) : Str :=
  (scan p s).flatMap (Piece.render f)

/-! ## Slug derivation (`generatePosts`, lines 109-113) -/

/-- The pattern `/[^a-z0-9]+/g`: a maximal run of code units outside
`[a-z0-9]`. -/
def nonAlnumRun : Pattern Unit := fun _ s =>
  match s with
  | [] => none
  | c :: cs =>
    if isLowerAlnum c then none
    else some ((), cs.dropWhile fun d => !isLowerAlnum d)

/-- The pattern `/(^-|-$)/g`: a hyphen at index 0 or a hyphen at the end of
the subject. -/
def edgeHyphen : Pattern Unit := fun atStart s =>
  match s with
  | [] => none
  | c :: cs =>
    if c = hyphen ∧ (atStart = true ∨ cs = []) then some ((), cs) else none

/-- The slug of a title:
`title.toLowerCase().replace(/[^a-z0-9]+/g, "-").replace(/(^-|-$)/g, "")`. -/
def slugify (toLowerCase : Str → Str) (title : Str) : Str :=
  replaceAll edgeHyphen (fun _ => [])
    (replaceAll nonAlnumRun (fun _ => [hyphen]) (toLowerCase title))

/-- The `path` field of a post: the template literal `/posts/${slug}`. -/
def postPath (slug : Str) : Str := utf16 "/posts/" ++ slug

/-- State of the automaton of `^[a-z0-9]+(-[a-z0-9]+)*$`: whether the last
code unit read was in `[a-z0-9]`. -/
def slugPatternFrom : Bool → Str → Bool
  | afterAlnum, [] => afterAlnum
  | afterAlnum, c :: cs =>
    if isLowerAlnum c then slugPatternFrom true cs
    else if c = hyphen ∧ afterAlnum = true then slugPatternFrom false cs
    else false

/-- Whether a string matches `^[a-z0-9]+(-[a-z0-9]+)*$`. -/
def matchesSlugPattern (s : Str) : Bool := slugPatternFrom false s

/-! ## Pagination planner (`paginatePosts`, lines 64-95) -/

/-- The constant `POSTS_PER_PAGE`. -/
def POSTS_PER_PAGE : Nat := 5

/-- The call `Math.ceil(n / POSTS_PER_PAGE)` for a length `n`. -/
def ceilPages (n : Nat) : Nat := (n + (POSTS_PER_PAGE - 1)) / POSTS_PER_PAGE

/-- The call `xs.slice(start, stop)` of `Array.prototype.slice`: a negative
index counts from the end, and both indices are clamped to `0..length`. -/
def jsSlice {α : Type} (xs : List α) (start stop : Int) : List α :=
  let len : Int := xs.length
  let k : Int := if start < 0 then max (len + start) 0 else min start len
  let final : Int := if stop < 0 then max (len + stop) 0 else min stop len
  (xs.drop k.toNat).take (final - k).toNat

/-- Decimal text of an integer, as produced by a template literal. -/
def decimal (n : Int) : Str := utf16 (toString n)

/-- One entry of `pageNumbers`. -/
structure PageNumber where
  number : Nat
  isActive : Bool
  deriving DecidableEq

/-- The `pagination` object returned by `paginatePosts`; `none` is `null`. -/
structure Pagination where
  currentPage : Int
  totalPages : Nat
  prevPage : Option Str
  nextPage : Option Str
  pageNumbers : List PageNumber
  deriving DecidableEq

/-- The object returned by `paginatePosts`. -/
structure Page (α : Type) where
  posts : List α
  pagination : Pagination

/-- The function `paginatePosts(posts, currentPage)`. -/
def paginatePosts {α : Type} (posts : List α) (currentPage : Int) : Page α :=
  let totalPosts := posts.length
  let totalPages := ceilPages totalPosts
  let start : Int := (currentPage - 1) * POSTS_PER_PAGE
  let paginatedPosts := jsSlice posts start (start + POSTS_PER_PAGE)
  { posts := paginatedPosts
    pagination :=
      { currentPage := currentPage
        totalPages := totalPages
        prevPage :=
          if currentPage > 1 then some (utf16 "/page/" ++ decimal (currentPage - 1)) else none
        nextPage :=
          if currentPage < totalPages then some (utf16 "/page/" ++ decimal (currentPage + 1))
          else none
        pageNumbers := (List.range totalPages).map fun i =>
          { number := i + 1, isActive := decide (((i + 1 : Nat) : Int) = currentPage) } } }

/-- The page numbers visited by the listing loop of `generatePosts`
(`for (let page = 1; page <= Math.ceil(posts.length / POSTS_PER_PAGE); page++)`). -/
def listingPageNumbers (n : Nat) : List Nat := List.range' 1 (ceilPages n)

/-- The results of `paginatePosts(posts, page)` over the listing loop, in the
order in which the loop produces them. -/
def listingPages {α : Type} (posts : List α) : List (Page α) :=
  (listingPageNumbers posts.length).map fun (page : Nat) => paginatePosts posts (page : Int)

/-! ## Date sort (`generatePosts`, line 168) -/

/-- The comparator `(a, b) => new Date(b.date) - new Date(a.date)` as seen by
`Array.prototype.sort`: `time` gives the time value of `new Date(x.date)`, with
`none` for `NaN` (Invalid Date); a `NaN` difference is treated as `+0`. -/
def compareDates {α : Type} (time : α → Option Int) (a b : α) : Int :=
  match time b, time a with
  | some tb, some ta => tb - ta
  | _, _ => 0

/-- Insertion of `a`, which precedes every element of `l` in the original
array, into the sorted `l`: `a` goes before the first `b` with `cmp a b ≤ 0`. -/
def sortInsert {α : Type} (cmp : α → α → Int) (a : α) : List α → List α
  | [] => [a]
  | b :: l => if cmp a b ≤ 0 then a :: b :: l else b :: sortInsert cmp a l

/-- The call `xs.sort(cmp)` of `Array.prototype.sort`, which is stable: with a
consistent comparator its result is the stable insertion sort.  (With an
inconsistent comparator the order is implementation-defined; the result is
still a permutation.) -/
def jsSort {α : Type} (cmp : α → α → Int) : List α → List α
  | [] => []
  | a :: l => sortInsert cmp a (jsSort cmp l)

/-! ## Runtime and configuration -/

/-- Contents of a file or of a network response. -/
abbrev Bytes := List Nat

/-- The library functions and the environment that `generate.js` relies on.
Failing calls (an exception, a rejected promise) are `none` or `false`. -/
structure Runtime where
  /-- `String.prototype.toLowerCase`. -/
  toLowerCase : Str → Str
  /-- `marked(content, { async: true })`, awaited. -/
  marked : Str → Str
  /-- `path.join` applied to its arguments. -/
  pathJoin : List Str → Str
  /-- `path.extname`. -/
  extname : Str → Str
  /-- `path.basename(p, ext)`. -/
  basename : Str → Str → Str
  /-- `fs.existsSync`. -/
  existsSync : Str → Bool
  /-- `fs.readFileSync(p)`; `none` when it throws. -/
  readFileSync : Str → Option Bytes
  /-- `fetch(url)` followed by `arrayBuffer()`; `none` when either rejects. -/
  fetch : Str → Option Bytes
  /-- `sharp(buffer).resize(...).webp(...).toFile(out)`: whether it resolves. -/
  sharpToFile : Bytes → Str → Bool
  /-- Time value of `new Date(s)` for a date given as text; `none` is `NaN`. -/
  dateTime : Str → Option Int
  /-- The module directory `__dirname`. -/
  dirname : Str
  /-- The order in which `n` concurrently started transcodes settle. -/
  completion : (n : Nat) → { order : List Nat // order.Perm (List.range n) }

/-- The directory `contentDir`. -/
def contentDir (rt : Runtime) : Str := rt.pathJoin [rt.dirname, utf16 "content"]

/-- The directory `outputDir`. -/
def outputDir (rt : Runtime) : Str := rt.pathJoin [rt.dirname, utf16 "public"]

/-- The directory `postsDir`. -/
def postsDir (rt : Runtime) : Str := rt.pathJoin [outputDir rt, utf16 "posts"]

/-- The directory `imagesDir`. -/
def imagesDir (rt : Runtime) : Str := rt.pathJoin [outputDir rt, utf16 "images"]

/-- The field `siteConfig.siteName`. -/
def siteName : Str := utf16 "My Blog"

/-- The field `siteConfig.siteUrl`. -/
def siteUrl : Str := utf16 "https://yourdomain.com"

/-- The field `siteConfig.defaultImage`. -/
def defaultImage : Str := utf16 "/images/default-featured.jpg"

/-- The call `s.startsWith(pre)`. -/
def startsWith (pre s : Str) : Bool := decide (s.take pre.length = pre)

/-- The call `s.endsWith(suf)`. -/
def endsWith (suf s : Str) : Bool := decide (s.drop (s.length - suf.length) = suf)

/-- Text of a possibly `undefined` string inside a template literal or as a
replacement value. -/
def textOf : Option Str → Str
  | some s => s
  | none => utf16 "undefined"

/-! ## Image transcoding (`processImage`, lines 28-62) -/

/-- The pattern `/[^a-z0-9]/gi`: one code unit outside `[a-zA-Z0-9]`. -/
def nonAlnumUnit : Pattern Unit := fun _ s =>
  match s with
  | [] => none
  | c :: cs => if isAlnumIgnoreCase c then none else some ((), cs)

/-- The sanitized base name of `processImage`:
`path.basename(imagePath, ext).replace(/[^a-z0-9]/gi, '-').toLowerCase()`. -/
def sanitizedBasename (rt : Runtime) (imagePath : Str) : Str :=
  rt.toLowerCase
    (replaceAll nonAlnumUnit (fun _ => [hyphen]) (rt.basename imagePath (rt.extname imagePath)))

/-- Outcome of `processImage`: the string the returned promise resolves to
and the files written to the images directory. -/
structure Transcode where
  result : Str
  written : List Str
  deriving DecidableEq

/-- The function `processImage(imagePath)`.  The whole body is inside `try`,
and the `catch` clause returns `imagePath`. -/
def processImage (rt : Runtime) (imagePath : Str) : Transcode :=
  let imageBuffer :=
    if startsWith (utf16 "http://") imagePath || startsWith (utf16 "https://") imagePath
    then rt.fetch imagePath
    else rt.readFileSync imagePath
  match imageBuffer with
  | none => { result := imagePath, written := [] }
  | some buffer =>
    let basename := sanitizedBasename rt imagePath
    let outputPath := rt.pathJoin [imagesDir rt, basename ++ utf16 ".webp"]
    if rt.sharpToFile buffer outputPath then
      { result := utf16 "/images/" ++ basename ++ utf16 ".webp", written := [outputPath] }
    else { result := imagePath, written := [] }

/-! ## Image substitution (`generatePosts`, lines 118-134) -/

/-- Remainder of `s` after the literal `pre`, when `s` starts with it. -/
def afterLiteral : Str → Str → Option Str
  | [], s => some s
  | _ :: _, [] => none
  | a :: pre, b :: s => if a = b then afterLiteral pre s else none

/-- The pattern `/!\[([^\]]*)\]\(([^)]+)\)/g` (`imageRegex`); the match data
are the two groups `alt` and `imagePath`.  Both negated classes stop at the
first excluded code unit, so the match at an index is unique. -/
def imageRegex : Pattern (Str × Str) := fun _ s =>
  match s with
  | 33 :: 91 :: t =>
    match t.dropWhile (fun c => c != 93) with
    | 93 :: 40 :: u =>
      match u.dropWhile (fun c => c != 41) with
      | 41 :: rest =>
        if u.takeWhile (fun c => c != 41) = [] then none
        else some ((t.takeWhile (fun c => c != 93), u.takeWhile (fun c => c != 41)), rest)
      | _ => none
    | _ => none
  | _ => none

/-- The pattern `/!\[[^\]]*\]\(processing\.\.\.\)/g`. -/
def placeholderRegex : Pattern Unit := fun _ s =>
  match s with
  | 33 :: 91 :: t =>
    match t.dropWhile (fun c => c != 93) with
    | 93 :: u =>
      match afterLiteral (utf16 "(processing...)") u with
      | some rest => some ((), rest)
      | none => none
    | _ => none
  | _ => none

/-- Text of an image reference with the given alternative text and path. -/
def imageRefText (alt path : Str) : Str :=
  utf16 "![" ++ alt ++ utf16 "](" ++ path ++ utf16 ")"

/-- The path `fullImagePath = path.join(contentDir, imagePath)`. -/
def fullImagePath (rt : Runtime) (imagePath : Str) : Str :=
  rt.pathJoin [contentDir rt, imagePath]

/-- Return value of the callback of the first `replace` for a match with
groups `alt = m.1` and `imagePath = m.2`. -/
def firstPassText (rt : Runtime) (m : Str × Str) : Str :=
  if rt.existsSync (fullImagePath rt m.2) then imageRefText m.1 (utf16 "processing...")
  else imageRefText m.1 m.2

/-- Paths passed to `processImage` by the callback of the first `replace`, in
the order of the calls (the order of `imagePromises`). -/
def scheduledPaths (rt : Runtime) : List (Piece (Str × Str)) → List Str
  | [] => []
  | Piece.lit _ :: ps => scheduledPaths rt ps
  | Piece.hit m :: ps =>
    if rt.existsSync (fullImagePath rt m.2) then fullImagePath rt m.2 :: scheduledPaths rt ps
    else scheduledPaths rt ps

/-- The values array of `Promise.all`: promise `i` stores its value at index
`i` when it settles; `order` lists the promises in the order they settle. -/
def promiseAll {α : Type} (values : List α) (order : List Nat) : List (Option α) :=
  order.foldl (fun slots i => slots.set i values[i]?) (List.replicate values.length none)

/-- The second `replace`: each match becomes `![](${optimizedImages.shift()})`;
`shift` on an empty array gives `undefined`. -/
def shiftPass : List (Piece Unit) → List (Option Str) → Str
  | [], _ => []
  | Piece.lit c :: ps, queue => c :: shiftPass ps queue
  | Piece.hit _ :: ps, queue =>
    utf16 "![](" ++ textOf queue.head?.join ++ utf16 ")" ++ shiftPass ps queue.tail

/-- The image substitution of `generatePosts` on a rendered fragment, for a
given list of transcode results and a given order of completion. -/
def substituteWith (rt : Runtime) (results : List Str) (order : List Nat)
    (htmlContent : Str) : Str :=
  let marked := replaceAll imageRegex (firstPassText rt) htmlContent
  shiftPass (scan placeholderRegex marked) (promiseAll results order)

/-- The image substitution of `generatePosts`: the resulting fragment and the
image files written by the transcodes. -/
def substituteImages (rt : Runtime) (htmlContent : Str) : Str × List Str :=
  let scheduled := scheduledPaths rt (scan imageRegex htmlContent)
  let transcodes := scheduled.map (processImage rt)
  (substituteWith rt (transcodes.map Transcode.result) (rt.completion transcodes.length).1
      htmlContent,
    transcodes.flatMap Transcode.written)

/-! ## Content items, posts and the run (`generatePosts`, `main`) -/

/-- A metadata value, as far as `generate.js` observes it: a string, or any
other value (`null`, a number, a boolean, a date, a sequence or a mapping).  A
value that is not a string is given by whether it is truthy, by the text that
`ToString` gives it (`none` when that conversion throws) and by the time value
of `new Date(v)` (`none` when there is none: it is `NaN`, or the conversion
throws).  For instance `null` is `other false (some "null") (some 0)` and the
number `2024` is `other true (some "2024") (some 2024)`. -/
inductive Value where
  | text (s : Str)
  | other (truthy : Bool) (shown : Option Str) (time : Option Int)
  deriving DecidableEq

/-- The metadata block of a content file (`matter(source).data`); `none` is
an absent field (`undefined`). -/
structure Frontmatter where
  title : Option Value
  date : Option Value
  author : Option Value
  description : Option Value
  keywords : Option Value
  featuredImage : Option Value
  deriving DecidableEq

/-- An entry of the content directory: its file name and, for a content file,
the result of `matter` on its text. -/
structure ContentFile where
  file : Str
  frontmatter : Frontmatter
  content : Str
  deriving DecidableEq

/-- A record pushed onto `posts`; the title is a string, since the slug was
derived from it. -/
structure Post where
  title : Str
  date : Option Value
  slug : Str
  path : Str
  deriving DecidableEq

/-- Time value of `new Date(date)`, `none` when there is none;
`new Date(undefined)` is an Invalid Date. -/
def timeOf (rt : Runtime) : Option Value → Option Int
  | none => none
  | some (Value.text s) => rt.dateTime s
  | some (Value.other _ _ time) => time

/-- Text of a metadata value passed to `replace` as the replacement, `none`
when the conversion throws; `undefined` gives the text `undefined`. -/
def shownOf : Option Value → Option Str
  | none => some (utf16 "undefined")
  | some (Value.text s) => some s
  | some (Value.other _ shown _) => shown

/-- Text of the replacement `x || fallback` for a metadata value `x`: the
fallback is taken when `x` is `undefined`, the empty string or another falsy
value; `none` when `x` is taken and its conversion to text throws. -/
def orElse (x : Option Value) (fallback : Str) : Option Str :=
  match x with
  | none => some fallback
  | some (Value.text []) => some fallback
  | some (Value.text (c :: cs)) => some (c :: cs)
  | some (Value.other false _ _) => some fallback
  | some (Value.other true shown _) => shown

/-- The values substituted into the post template, in the order of the
`replace` chain; `isoDate` is the time value that `toISOString` renders. -/
structure PostValues where
  siteName : Str
  title : Str
  description : Str
  author : Str
  keywords : Str
  featuredImage : Str
  url : Str
  isoDate : Int
  content : Str
  deriving DecidableEq

/-- A file written by the run. -/
inductive Artifact where
  | image (file : Str)
  | postPage (file : Str) (values : PostValues)
  | listingPage (file : Str) (posts : List Post) (pagination : Pagination)
  | manifest (file : Str) (posts : List Post)
  | sitemap (file : Str) (posts : List Post)
  | robots (file : Str)
  deriving DecidableEq

/-- An exception thrown while a content item is processed, by the step that
throws it: the slug derivation (`frontmatter.title.toLowerCase()` throws a
`TypeError` when the title is absent or not a string) or the `replace` chain
that builds `finalHTML` (a replacement value whose conversion to text throws;
`new Date(frontmatter.date).toISOString()`, which throws a `RangeError` on an
invalid date). -/
inductive Failure where
  | slugStep
  | templateStep
  deriving DecidableEq

/-- One iteration of the loop over content files in `generatePosts`, for a
file whose name ends in `.md`: the files it writes and either the post it
pushes or the exception it throws.  The slug is derived first; then the images
of the rendered body are transcoded; then the values of the `replace` chain are
evaluated; then the page is written and the post pushed. -/
def processItem (rt : Runtime) (item : ContentFile) : List Artifact × Except Failure Post :=
  match item.frontmatter.title with
  | some (Value.text title) =>
    let slug := slugify rt.toLowerCase title
    let substituted := substituteImages rt (rt.marked item.content)
    match shownOf item.frontmatter.description, shownOf item.frontmatter.author,
      orElse item.frontmatter.keywords [], orElse item.frontmatter.featuredImage defaultImage,
      timeOf rt item.frontmatter.date with
    | some description, some author, some keywords, some featuredImage, some time =>
      let values : PostValues :=
        { siteName := siteName
          title := title
          description := description
          author := author
          keywords := keywords
          featuredImage := featuredImage
          url := siteUrl ++ utf16 "/posts/" ++ slug
          isoDate := time
          content := substituted.1 }
      (substituted.2.map Artifact.image ++
          [Artifact.postPage (rt.pathJoin [postsDir rt, slug ++ utf16 ".html"]) values],
        Except.ok
          { title := title, date := item.frontmatter.date, slug := slug, path := postPath slug })
    | _, _, _, _, _ => (substituted.2.map Artifact.image, Except.error Failure.templateStep)
  | _ => ([], Except.error Failure.slugStep)

/-- The loop over content files in `generatePosts`: the files written and
either the array `posts` after the loop or the exception that ended it. -/
def generateItems (rt : Runtime) :
    List ContentFile → List Post → List Artifact × Except Failure (List Post)
  | [], posts => ([], Except.ok posts)
  | item :: items, posts =>
    if endsWith (utf16 ".md") item.file then
      match processItem rt item with
      | (written, Except.error e) => (written, Except.error e)
      | (written, Except.ok post) =>
        let later := generateItems rt items (posts ++ [post])
        (written ++ later.1, later.2)
    else generateItems rt items posts

/-- The sort `posts.sort((a, b) => new Date(b.date) - new Date(a.date))`. -/
def sortPosts (rt : Runtime) (posts : List Post) : List Post :=
  jsSort (compareDates fun p => timeOf rt p.date) posts

/-- The files written by one iteration of the listing loop. -/
def listingArtifacts (rt : Runtime) (posts : List Post) (page : Nat) : List Artifact :=
  let planned := paginatePosts posts (page : Int)
  (if page = 1 then
      [Artifact.listingPage (rt.pathJoin [outputDir rt, utf16 "index.html"])
        planned.posts planned.pagination]
    else []) ++
    [Artifact.listingPage
      (rt.pathJoin [rt.pathJoin [outputDir rt, utf16 "page", decimal page], utf16 "index.html"])
      planned.posts planned.pagination]

/-- The function `generatePosts`: the files written and either the sorted
array `posts` or the exception thrown. -/
def generatePosts (rt : Runtime) (items : List ContentFile) :
    List Artifact × Except Failure (List Post) :=
  match generateItems rt items [] with
  | (written, Except.error e) => (written, Except.error e)
  | (written, Except.ok generated) =>
    let posts := sortPosts rt generated
    (written ++ (listingPageNumbers posts.length).flatMap (listingArtifacts rt posts) ++
        [Artifact.manifest (rt.pathJoin [outputDir rt, utf16 "posts.json"]) posts],
      Except.ok posts)

/-- Result of a run: the exit status of the process and the files written. -/
structure Run where
  exitCode : Nat
  written : List Artifact
  deriving DecidableEq

/-- The function `main`: `generatePosts`, then the sitemap (whose
`toISOString` calls throw on an invalid date) and the robots file; any
exception is caught and ends the process with status 1.  Reads of the
templates and writes of the outputs are taken to succeed. -/
def main (rt : Runtime) (items : List ContentFile) : Run :=
  match generatePosts rt items with
  | (written, Except.error _) => { exitCode := 1, written := written }
  | (written, Except.ok posts) =>
    if posts.all fun p => (timeOf rt p.date).isSome then
      { exitCode := 0
        written := written ++
          [Artifact.sitemap (rt.pathJoin [outputDir rt, utf16 "sitemap.xml"]) posts,
            Artifact.robots (rt.pathJoin [outputDir rt, utf16 "robots.txt"])] }
    else { exitCode := 1, written := written }

/-! ## A reference runtime for evaluating examples -/

/-- Last component of a POSIX path, trailing slashes ignored. -/
def lastSegment (p : Str) : Str :=
  ((p.reverse.dropWhile fun c => c == 47).takeWhile fun c => c != 47).reverse

/-- POSIX `path.extname`: the text from the last dot of the last component,
or nothing when there is no dot, the dot is its first code unit, or the
component is `..`. -/
def posixExtname (p : Str) : Str :=
  let seg := lastSegment p
  let ext := (seg.reverse.takeWhile fun c => c != 46).reverse
  if seg.all (fun c => c != 46) then []
  else if seg.length = ext.length + 1 ∨ seg = [46, 46] then []
  else 46 :: ext

/-- POSIX `path.basename(p, ext)` for a suffix that is empty or a proper
suffix of the last component. -/
def posixBasename (p ext : Str) : Str :=
  let seg := lastSegment p
  if ext ≠ [] ∧ ext.length < seg.length ∧ endsWith ext seg = true then
    seg.take (seg.length - ext.length)
  else seg

/-- Value bound to a key in an association list. -/
def lookup {β : Type} (key : Str) : List (Str × β) → Option β
  | [] => none
  | (k, v) :: rest => if k = key then some v else lookup key rest

/-- A runtime over a fixed file system: `files` are the readable files with
their contents, `broken` the output files that `sharp` fails to produce, and
`dates` the date texts that parse, with their time values.  Code units are
lowercased as ASCII, `marked` is the identity (exact on the empty body) and
`path.join` joins with `/` (exact for an absolute first argument followed by
plain names); with `reversed` the transcodes settle last-started first. -/
def nodeRuntime (files : List (Str × Bytes)) (broken : List Str) (dates : List (Str × Int))
    (reversed : Bool) : Runtime :=
  { toLowerCase := asciiLower
    marked := fun s => s
    pathJoin := fun parts => List.intercalate (utf16 "/") parts
    extname := posixExtname
    basename := posixBasename
    existsSync := fun p => (lookup p files).isSome
    readFileSync := fun p => lookup p files
    fetch := fun _ => none
    sharpToFile := fun _ out => !broken.contains out
    dateTime := fun s => lookup s dates
    dirname := utf16 "/site"
    completion := fun n =>
      if reversed then ⟨(List.range n).reverse, List.reverse_perm _⟩
      else ⟨List.range n, List.Perm.refl _⟩ }

/-- Time values of two parsed dates. -/
def exampleDates : List (Str × Int) :=
  [(utf16 "2024-01-05", 1704412800000), (utf16 "2024-02-01", 1706745600000)]

/-- A content file with the given name, title and date (both given as text),
no other metadata and an empty body. -/
def exampleItem (file : String) (title date : Option String) : ContentFile :=
  { file := utf16 file
    frontmatter :=
      { title := title.map fun t => Value.text (utf16 t)
        date := date.map fun d => Value.text (utf16 d)
        author := none, description := none, keywords := none, featuredImage := none }
    content := [] }

/-- The YAML number `2024` as a metadata value. -/
def exampleNumber : Value := Value.other true (some (utf16 "2024")) (some 2024)

/-- A runtime whose content directory holds `my photo.png` and `pic.png`, and
where the transcode of `pic.png` fails. -/
def exampleRuntime : Runtime :=
  nodeRuntime [(utf16 "/site/content/my photo.png", [1]), (utf16 "/site/content/pic.png", [2])]
    [utf16 "/site/public/images/pic.webp"] exampleDates false

/-! ## Auxiliary definitions for the theorems -/

/-- Both dates are valid and the first is not earlier than the second. -/
def DateGE {α : Type} (time : α → Option Int) (a b : α) : Prop :=
  ∃ ta tb, time a = some ta ∧ time b = some tb ∧ tb ≤ ta

/-- The scan of a remaining subject, with the exact amount of fuel. -/
def scanFrom {μ : Type} (p : Pattern μ) (atStart : Bool) (s : Str) : List (Piece μ) :=
  scanAux p s.length atStart s

/-- A pattern none of whose matches is empty. -/
def Shrinks {μ : Type} (p : Pattern μ) : Prop :=
  ∀ b s m rest, p b s = some (m, rest) → rest.length < s.length

/-- Strings over `[a-z0-9-]` without two adjacent hyphens; with `afterHyphen`
the string may not start with a hyphen either. -/
def hyphenated : Bool → Str → Bool
  | _, [] => true
  | afterHyphen, c :: cs =>
    if isLowerAlnum c then hyphenated false cs
    else decide (c = hyphen) && !afterHyphen && hyphenated true cs

/-- A rendered fragment given as a sequence of text runs and image
references. -/
inductive Segment where
  | text (s : Str)
  | ref (alt path : Str)

/-- Text of a segment. -/
def Segment.source : Segment → Str
  | Segment.text s => s
  | Segment.ref alt path => imageRefText alt path

/-- Text of a fragment. -/
def sourceOf (doc : List Segment) : Str := doc.flatMap Segment.source

/-- Whether the path of a reference resolves to an existing file relative to
the content directory. -/
def resolvesLocally (rt : Runtime) (path : Str) : Bool := rt.existsSync (fullImagePath rt path)

/-- No `!` of `s` is directly followed by `[`, where `next` is the code unit
that follows `s`, if any. -/
def NoRefStart (s : Str) (next : Option Nat) : Prop :=
  ∀ u v, s = u ++ 33 :: v → (v ++ next.toList).head? ≠ some 91

/-- A syntactic condition on a fragment, sufficient (not necessary) for
`Aligned`: in no text run is a `!` directly followed by `[` (also not across
the end of the run); a reference has no `]` in its alternative text and a
non-empty path without `)`; and a reference that does not resolve locally has
a path other than `processing...` in which no `!` is directly followed by
`[`. -/
def PlainDoc (rt : Runtime) : List Segment → Prop
  | [] => True
  | Segment.text s :: doc => NoRefStart s (sourceOf doc).head? ∧ PlainDoc rt doc
  | Segment.ref alt path :: doc =>
    93 ∉ alt ∧ 41 ∉ path ∧ path ≠ [] ∧
      (resolvesLocally rt path = false →
        path ≠ utf16 "processing..." ∧ NoRefStart path (some 41)) ∧
      PlainDoc rt doc

/-- The fragment in which the references that resolve locally take their
values from `queue` in document order, as `![](value)`, and everything else
is unchanged. -/
def substituted (rt : Runtime) : List Segment → List (Option Str) → Str
  | [], _ => []
  | Segment.text s :: doc, queue => s ++ substituted rt doc queue
  | Segment.ref alt path :: doc, queue =>
    if resolvesLocally rt path then
      utf16 "![](" ++ textOf queue.head?.join ++ utf16 ")" ++ substituted rt doc queue.tail
    else imageRefText alt path ++ substituted rt doc queue

/-- The full paths of the references that resolve locally, in document
order. -/
def localPaths (rt : Runtime) : List Segment → List Str
  | [] => []
  | Segment.text _ :: doc => localPaths rt doc
  | Segment.ref _ path :: doc =>
    if resolvesLocally rt path then fullImagePath rt path :: localPaths rt doc
    else localPaths rt doc

/-- The fragment after the first `replace`. -/
def Segment.marked (rt : Runtime) : Segment → Segment
  | Segment.text s => Segment.text s
  | Segment.ref alt path =>
    if resolvesLocally rt path then Segment.ref alt (utf16 "processing...")
    else Segment.ref alt path

/-- Pieces of a segment under `imageRegex`. -/
def Segment.firstPieces : Segment → List (Piece (Str × Str))
  | Segment.text s => s.map Piece.lit
  | Segment.ref alt path => [Piece.hit (alt, path)]

/-- Pieces of a marked segment under `placeholderRegex`. -/
def Segment.secondPieces (rt : Runtime) : Segment → List (Piece Unit)
  | Segment.text s => s.map Piece.lit
  | Segment.ref alt path =>
    if resolvesLocally rt path then [Piece.hit ()]
    else (imageRefText alt path).map Piece.lit

/-- Fragments on which the two patterns of the image substitution meet
exactly the references: the first scan finds the references of the fragment
and nothing else, and the second scan finds the placeholders of the marked
fragment and nothing else. -/
def Aligned (rt : Runtime) (doc : List Segment) : Prop :=
  scan imageRegex (sourceOf doc) = doc.flatMap Segment.firstPieces ∧
  scan placeholderRegex (sourceOf (doc.map (Segment.marked rt))) =
    doc.flatMap (Segment.secondPieces rt)

/-- The text that the image substitution leaves for a segment: a reference
that resolves locally becomes `![](result)` with the result of its own
transcode; text and other references are unchanged. -/
def Segment.outcome (rt : Runtime) : Segment → Str
  | Segment.text s => s
  | Segment.ref alt path =>
    if resolvesLocally rt path then
      utf16 "![](" ++ (processImage rt (fullImagePath rt path)).result ++ utf16 ")"
    else imageRefText alt path

/-- A transcode that fails: the image cannot be retrieved, or `sharp` fails to
resize, encode or write it. -/
def TranscodeFails (rt : Runtime) (imagePath : Str) : Prop :=
  (if startsWith (utf16 "http://") imagePath || startsWith (utf16 "https://") imagePath
    then rt.fetch imagePath else rt.readFileSync imagePath) = none ∨
  ∃ buffer,
    (if startsWith (utf16 "http://") imagePath || startsWith (utf16 "https://") imagePath
      then rt.fetch imagePath else rt.readFileSync imagePath) = some buffer ∧
    rt.sharpToFile buffer
      (rt.pathJoin [imagesDir rt, sanitizedBasename rt imagePath ++ utf16 ".webp"]) = false

/-- File of a post page, for an artifact that is one. -/
def Artifact.postPageFile : Artifact → Option Str
  | Artifact.postPage file _ => some file
  | _ => none

/-- The post pages among the files written, in the order written. -/
def postPageFiles (written : List Artifact) : List Str :=
  written.filterMap Artifact.postPageFile

/-- Whether an artifact is written while a content item is processed: a
transcoded image or a post page. -/
def Artifact.isItemOutput : Artifact → Bool
  | Artifact.image _ => true
  | Artifact.postPage _ _ => true
  | _ => false

/-- The title of a content item as text; empty when it is absent or not a
string. -/
def titleText : Option Value → Str
  | some (Value.text title) => title
  | _ => []

/-- The file `path.join(postsDir, slug + ".html")` of the post page of a
content item. -/
def postPageOf (rt : Runtime) (item : ContentFile) : Str :=
  rt.pathJoin
    [postsDir rt, slugify rt.toLowerCase (titleText item.frontmatter.title) ++ utf16 ".html"]

/-- Metadata with which a content item is processed to the end: the title is a
string, the date has a valid time value, and the values that enter the
`replace` chain convert to text. -/
def Complete (rt : Runtime) (fm : Frontmatter) : Prop :=
  (∃ title, fm.title = some (Value.text title)) ∧
  (∃ description, shownOf fm.description = some description) ∧
  (∃ author, shownOf fm.author = some author) ∧
  (∃ keywords, orElse fm.keywords [] = some keywords) ∧
  (∃ featuredImage, orElse fm.featuredImage defaultImage = some featuredImage) ∧
  ∃ time, timeOf rt fm.date = some time

/-- Whether the loop of `generatePosts` processes a directory entry. -/
def isContent (item : ContentFile) : Bool := endsWith (utf16 ".md") item.file

/-- The strings of `^[a-z0-9]+(-[a-z0-9]+)*$`: one or more non-empty words
over `[a-z0-9]`, joined by single hyphens. -/
def SlugShaped (s : Str) : Prop :=
  ∃ parts : List Str, parts ≠ [] ∧ (∀ w ∈ parts, w ≠ [] ∧ ∀ c ∈ w, isLowerAlnum c = true) ∧
    s = List.intercalate [hyphen] parts

/-- A string that does not start with `[`. -/
def NoBracketHead (s : Str) : Prop := s.head? ≠ some 91

/-- The first `replace` of the slug derivation, from an index past 0. -/
def collapseFrom (s : Str) : Str :=
  (scanFrom nonAlnumRun false s).flatMap (Piece.render fun _ => [hyphen])

/-- The second `replace` of the slug derivation, from an index that is index 0
when `atStart` holds. -/
def trimFrom (atStart : Bool) (s : Str) : Str :=
  (scanFrom edgeHyphen atStart s).flatMap (Piece.render fun _ => [])

/-! ## Theorems: scanning -/

theorem length_dropWhile_le {α : Type} (q : α → Bool) (l : List α) :
    (l.dropWhile q).length ≤ l.length :=
  (List.dropWhile_sublist q).length_le

theorem scanAux_fuel {μ : Type} (p : Pattern μ) (hp : Shrinks p) :
    ∀ (f g : Nat) (b : Bool) (s : Str), s.length ≤ f → s.length ≤ g →
      scanAux p f b s = scanAux p g b s := by
  intro f
  induction f with
  | zero =>
    intro g b s hf _
    have hs : s = [] := List.length_eq_zero.mp (Nat.le_zero.mp hf)
    subst hs
    cases g <;> simp [scanAux]
  | succ f ih =>
    intro g b s hf hg
    cases s with
    | nil => cases g <;> simp [scanAux]
    | cons c cs =>
      cases g with
      | zero => simp at hg
      | succ g =>
        simp only [scanAux]
        simp only [List.length_cons, Nat.add_le_add_iff_right] at hf hg
        cases hm : p b (c :: cs) with
        | none => simp only [ih g false cs hf hg]
        | some mr =>
          obtain ⟨m, rest⟩ := mr
          have hlt := hp b (c :: cs) m rest hm
          simp only [List.length_cons] at hlt
          simp only [ih g false rest (by omega) (by omega)]

theorem scanFrom_nil {μ : Type} (p : Pattern μ) (b : Bool) : scanFrom p b [] = [] := by
  simp [scanFrom, scanAux]

theorem scanFrom_cons {μ : Type} (p : Pattern μ) (hp : Shrinks p) (b : Bool) (c : Nat)
    (cs : Str) :
    scanFrom p b (c :: cs) =
      match p b (c :: cs) with
      | some (m, rest) => Piece.hit m :: scanFrom p false rest
      | none => Piece.lit c :: scanFrom p false cs := by
  simp only [scanFrom, List.length_cons, scanAux]
  cases hm : p b (c :: cs) with
  | none => rfl
  | some mr =>
    obtain ⟨m, rest⟩ := mr
    have hlt := hp b (c :: cs) m rest hm
    simp only [List.length_cons] at hlt
    simp only [scanAux_fuel p hp cs.length rest.length false rest (by omega) (le_refl _)]

theorem scan_eq_scanFrom {μ : Type} (p : Pattern μ) (s : Str) : scan p s = scanFrom p true s :=
  rfl

theorem scanFrom_miss {μ : Type} (p : Pattern μ) (hp : Shrinks p) (b : Bool) (c : Nat)
    (cs : Str) (h : p b (c :: cs) = none) :
    scanFrom p b (c :: cs) = Piece.lit c :: scanFrom p false cs := by
  rw [scanFrom_cons p hp, h]

theorem scanFrom_hit {μ : Type} (p : Pattern μ) (hp : Shrinks p) (b : Bool) (c : Nat)
    (cs : Str) (m : μ) (rest : Str) (h : p b (c :: cs) = some (m, rest)) :
    scanFrom p b (c :: cs) = Piece.hit m :: scanFrom p false rest := by
  rw [scanFrom_cons p hp, h]

/-- For a pattern without anchors the scan does not depend on `atStart`. -/
theorem scanFrom_unanchored {μ : Type} (p : Pattern μ) (h : ∀ b s, p b s = p false s)
    (b : Bool) (s : Str) : scanFrom p b s = scanFrom p false s := by
  cases s with
  | nil => simp [scanFrom, scanAux]
  | cons c cs => simp only [scanFrom, List.length_cons, scanAux, h b (c :: cs)]

/-! ## Theorems: slug (C1) -/

theorem nonAlnumRun_shrinks : Shrinks nonAlnumRun := by
  intro b s m rest h
  cases s with
  | nil => simp [nonAlnumRun] at h
  | cons c cs =>
    simp only [nonAlnumRun] at h
    split at h
    · simp at h
    · simp only [Option.some.injEq, Prod.mk.injEq, true_and] at h
      subst h
      have := length_dropWhile_le (fun d => !isLowerAlnum d) cs
      simp only [List.length_cons]
      omega

theorem edgeHyphen_shrinks : Shrinks edgeHyphen := by
  intro b s m rest h
  cases s with
  | nil => simp [edgeHyphen] at h
  | cons c cs =>
    simp only [edgeHyphen] at h
    split at h
    · simp only [Option.some.injEq, Prod.mk.injEq, true_and] at h
      subst h
      simp
    · simp at h

theorem collapseFrom_nil : collapseFrom [] = [] := by
  simp [collapseFrom, scanFrom_nil]

theorem collapseFrom_cons (c : Nat) (cs : Str) :
    collapseFrom (c :: cs) =
      if isLowerAlnum c then c :: collapseFrom cs
      else hyphen :: collapseFrom (cs.dropWhile fun d => !isLowerAlnum d) := by
  unfold collapseFrom
  rw [scanFrom_cons nonAlnumRun nonAlnumRun_shrinks]
  by_cases hc : isLowerAlnum c = true
  · simp [nonAlnumRun, hc, Piece.render]
  · simp [nonAlnumRun, hc, Piece.render]

theorem trimFrom_nil (b : Bool) : trimFrom b [] = [] := by
  simp [trimFrom, scanFrom_nil]

theorem trimFrom_false_cons (c : Nat) (cs : Str) :
    trimFrom false (c :: cs) =
      if c = hyphen ∧ cs = [] then [] else c :: trimFrom false cs := by
  unfold trimFrom
  rw [scanFrom_cons edgeHyphen edgeHyphen_shrinks]
  by_cases hc : c = hyphen ∧ cs = []
  · obtain ⟨h1, h2⟩ := hc
    subst h1 h2
    simp [edgeHyphen, Piece.render, scanFrom_nil]
  · have : ¬ (c = hyphen ∧ (false = true ∨ cs = [])) := by simpa using hc
    simp [edgeHyphen, this, hc, Piece.render]

theorem trimFrom_true_cons (c : Nat) (cs : Str) :
    trimFrom true (c :: cs) = if c = hyphen then trimFrom false cs else c :: trimFrom false cs := by
  unfold trimFrom
  rw [scanFrom_cons edgeHyphen edgeHyphen_shrinks]
  by_cases hc : c = hyphen
  · simp [edgeHyphen, hc, Piece.render]
  · simp [edgeHyphen, hc, Piece.render]

theorem slugify_eq (toLowerCase : Str → Str) (title : Str) :
    slugify toLowerCase title = trimFrom true (collapseFrom (toLowerCase title)) := by
  unfold slugify replaceAll trimFrom collapseFrom
  rw [scan_eq_scanFrom, scan_eq_scanFrom,
    scanFrom_unanchored nonAlnumRun (fun _ _ => rfl) true]

theorem hyphen_not_alnum : isLowerAlnum hyphen = false := by decide

theorem dropWhile_head_alnum (cs : Str) :
    (cs.dropWhile fun d => !isLowerAlnum d) = [] ∨
      ∃ d ds, (cs.dropWhile fun d => !isLowerAlnum d) = d :: ds ∧ isLowerAlnum d = true := by
  induction cs with
  | nil => left; rfl
  | cons c cs ih =>
    by_cases hc : isLowerAlnum c = true
    · right
      exact ⟨c, cs, by simp [List.dropWhile, hc], hc⟩
    · simpa [List.dropWhile, hc] using ih

/-- The output of the first `replace` is over `[a-z0-9-]` without adjacent
hyphens, and starts with a hyphen only if the input starts outside `[a-z0-9]`. -/
theorem collapseFrom_hyphenated :
    ∀ (n : Nat) (s : Str), s.length ≤ n →
      hyphenated false (collapseFrom s) = true ∧
      ((s = [] ∨ ∃ c cs, s = c :: cs ∧ isLowerAlnum c = true) →
        hyphenated true (collapseFrom s) = true) := by
  intro n
  induction n with
  | zero =>
    intro s hs
    have : s = [] := List.length_eq_zero.mp (Nat.le_zero.mp hs)
    subst this
    simp [collapseFrom_nil, hyphenated]
  | succ n ih =>
    intro s hs
    cases s with
    | nil => simp [collapseFrom_nil, hyphenated]
    | cons c cs =>
      simp only [List.length_cons, Nat.add_le_add_iff_right] at hs
      rw [collapseFrom_cons]
      by_cases hc : isLowerAlnum c = true
      · simp only [hc, if_true, hyphenated]
        have := (ih cs hs).1
        simp [this]
      · simp only [hc, hyphenated, hyphen_not_alnum]
        have hlen := length_dropWhile_le (fun d => !isLowerAlnum d) cs
        have h2 := (ih (cs.dropWhile fun d => !isLowerAlnum d) (by omega)).2
          (by
            rcases dropWhile_head_alnum cs with h | ⟨d, ds, h, hd⟩
            · left; exact h
            · right; exact ⟨d, ds, h, hd⟩)
        simp [h2, hc]

theorem any_collapseFrom :
    ∀ (n : Nat) (s : Str), s.length ≤ n →
      (collapseFrom s).any isLowerAlnum = s.any isLowerAlnum := by
  intro n
  induction n with
  | zero =>
    intro s hs
    have : s = [] := List.length_eq_zero.mp (Nat.le_zero.mp hs)
    subst this
    simp [collapseFrom_nil]
  | succ n ih =>
    intro s hs
    cases s with
    | nil => simp [collapseFrom_nil]
    | cons c cs =>
      simp only [List.length_cons, Nat.add_le_add_iff_right] at hs
      rw [collapseFrom_cons]
      by_cases hc : isLowerAlnum c = true
      · simp [hc]
      · have hlen := length_dropWhile_le (fun d => !isLowerAlnum d) cs
        have h2 := ih (cs.dropWhile fun d => !isLowerAlnum d) (by omega)
        have h3 : (cs.dropWhile fun d => !isLowerAlnum d).any isLowerAlnum =
            cs.any isLowerAlnum := by
          clear h2 hlen hs
          induction cs with
          | nil => rfl
          | cons d ds ihd =>
            by_cases hd : isLowerAlnum d = true
            · simp [List.dropWhile, hd]
            · simp only [List.dropWhile, hd, Bool.not_false, Bool.not_eq_true] 
              simp [ihd, hd]
        simp only [hc, if_false, Bool.false_eq_true, List.any_cons, hyphen_not_alnum,
          Bool.false_or, h2, h3]

/-- After the trim, a hyphenated string is accepted by the slug automaton. -/
theorem slugPattern_trimFrom (s : Str) :
    (hyphenated false s = true → slugPatternFrom true (trimFrom false s) = true) ∧
    (hyphenated true s = true → s ≠ [] → slugPatternFrom false (trimFrom false s) = true) := by
  induction s with
  | nil => simp [trimFrom_nil, slugPatternFrom]
  | cons c cs ih =>
    rw [trimFrom_false_cons]
    by_cases hc : isLowerAlnum c = true
    · have hne : c ≠ hyphen := by
        intro h; subst h; simp [hyphen_not_alnum] at hc
      simp only [hyphenated, hc, if_true, hne, false_and, if_false, slugPatternFrom]
      exact ⟨ih.1, fun h _ => ih.1 h⟩
    · simp only [hyphenated, hc, Bool.false_eq_true, if_false, Bool.not_false, Bool.and_true,
        Bool.not_true, Bool.and_false, Bool.false_and, Bool.and_eq_true, decide_eq_true_eq,
        false_implies, and_true]
      rintro ⟨h1, h2⟩
      subst h1
      by_cases hnil : cs = []
      · subst hnil
        simp [slugPatternFrom]
      · simp only [hnil, and_false, if_false, slugPatternFrom, hyphen_not_alnum,
          Bool.false_eq_true, and_self, if_true]
        exact ih.2 h2 hnil

theorem slugify_matches (toLowerCase : Str → Str) (title : Str)
    (h : ∃ c ∈ toLowerCase title, isLowerAlnum c = true) :
    matchesSlugPattern (slugify toLowerCase title) = true := by
  rw [slugify_eq]
  have hshape := (collapseFrom_hyphenated _ (toLowerCase title) (le_refl _)).1
  have hany : (collapseFrom (toLowerCase title)).any isLowerAlnum = true := by
    rw [any_collapseFrom _ _ (le_refl _)]
    simpa using h
  generalize collapseFrom (toLowerCase title) = a at hshape hany
  cases a with
  | nil => simp at hany
  | cons c cs =>
    rw [trimFrom_true_cons]
    unfold matchesSlugPattern
    by_cases hc : c = hyphen
    · subst hc
      simp only [if_true]
      simp only [hyphenated, hyphen_not_alnum, Bool.false_eq_true, if_false, decide_True,
        Bool.not_false, Bool.and_self, Bool.true_and] at hshape
      simp only [List.any_cons, hyphen_not_alnum, Bool.false_or] at hany
      have hne : cs ≠ [] := by
        intro h0; subst h0; simp at hany
      exact (slugPattern_trimFrom cs).2 hshape hne
    · simp only [hc, if_false]
      have hal : isLowerAlnum c = true := by
        by_contra hn
        simp [hyphenated, hn, hc] at hshape
      simp only [hyphenated, hal, if_true] at hshape
      simp only [slugPatternFrom, hal, if_true]
      exact (slugPattern_trimFrom cs).1 hshape

theorem slugify_empty (toLowerCase : Str → Str) (title : Str)
    (h : ∀ c ∈ toLowerCase title, isLowerAlnum c = false) :
    slugify toLowerCase title = [] := by
  rw [slugify_eq]
  generalize toLowerCase title = l at h
  cases l with
  | nil => simp [collapseFrom_nil, trimFrom_nil]
  | cons c cs =>
    have hc : isLowerAlnum c = false := h c (by simp)
    have hd : (cs.dropWhile fun d => !isLowerAlnum d) = [] := by
      rw [List.dropWhile_eq_nil_iff]
      intro x hx
      simp [h x (by simp [hx])]
    rw [collapseFrom_cons]
    simp [hc, hd, collapseFrom_nil, trimFrom_true_cons, trimFrom_nil]

theorem intercalate_single (w : Str) : List.intercalate [hyphen] [w] = w := by
  simp [List.intercalate, List.intersperse]

theorem intercalate_cons_cons (w v : Str) (parts : List Str) :
    List.intercalate [hyphen] (w :: v :: parts) =
      w ++ hyphen :: List.intercalate [hyphen] (v :: parts) := by
  simp [List.intercalate, List.intersperse]

theorem slugShaped_of_pattern (s : Str) :
    (slugPatternFrom false s = true → SlugShaped s) ∧
    (∀ pre : Str, pre ≠ [] → (∀ c ∈ pre, isLowerAlnum c = true) →
      slugPatternFrom true s = true → SlugShaped (pre ++ s)) := by
  induction s with
  | nil =>
    refine ⟨fun h => by simp [slugPatternFrom] at h, ?_⟩
    intro pre hne hall _
    refine ⟨[pre], by simp, ?_, ?_⟩
    · intro w hw
      simp only [List.mem_singleton] at hw
      subst hw
      exact ⟨hne, hall⟩
    · rw [intercalate_single, List.append_nil]
  | cons c t ih =>
    by_cases hc : isLowerAlnum c = true
    · constructor
      · intro h
        simp only [slugPatternFrom, hc, if_true] at h
        have := ih.2 [c] (by simp) (by simpa using hc) h
        simpa using this
      · intro pre hne hall h
        simp only [slugPatternFrom, hc, if_true] at h
        have := ih.2 (pre ++ [c]) (by simp)
          (by
            intro d hd
            rcases List.mem_append.mp hd with hd | hd
            · exact hall d hd
            · simp only [List.mem_singleton] at hd
              subst hd
              exact hc) h
        simpa using this
    · constructor
      · intro h
        simp [slugPatternFrom, hc] at h
      · intro pre hne hall h
        simp only [slugPatternFrom, hc, Bool.false_eq_true, if_false, and_true] at h
        split at h
        · rename_i hh
          subst hh
          obtain ⟨parts, hp, hgood, heq⟩ := ih.1 h
          cases parts with
          | nil => exact absurd rfl hp
          | cons v parts =>
            refine ⟨pre :: v :: parts, by simp, ?_, ?_⟩
            · intro w hw
              rcases List.mem_cons.mp hw with rfl | hw
              · exact ⟨hne, hall⟩
              · exact hgood w hw
            · rw [intercalate_cons_cons, ← heq]
        · cases h

theorem slugPatternFrom_word (rest : Str) :
    ∀ (w : Str) (b : Bool), (∀ c ∈ w, isLowerAlnum c = true) →
      slugPatternFrom b (w ++ rest) = slugPatternFrom (if w = [] then b else true) rest := by
  intro w
  induction w with
  | nil => intro b _; rfl
  | cons c w ih =>
    intro b h
    have hc : isLowerAlnum c = true := h c (by simp)
    have hw : ∀ d ∈ w, isLowerAlnum d = true := fun d hd => h d (by simp [hd])
    have hstep : slugPatternFrom b (c :: (w ++ rest)) = slugPatternFrom true (w ++ rest) := by
      simp only [slugPatternFrom, hc, if_true]
    rw [List.cons_append, hstep, ih true hw]
    by_cases hnil : w = []
    · simp [hnil]
    · simp [hnil]

theorem pattern_of_slugShaped (s : Str) (h : SlugShaped s) : matchesSlugPattern s = true := by
  obtain ⟨parts, hp, hgood, rfl⟩ := h
  unfold matchesSlugPattern
  induction parts with
  | nil => exact absurd rfl hp
  | cons w parts ih =>
    obtain ⟨hw1, hw2⟩ := hgood w (by simp)
    cases parts with
    | nil =>
      have := slugPatternFrom_word [] w false hw2
      simp only [List.append_nil, hw1, if_false] at this
      rw [intercalate_single, this]
      rfl
    | cons v parts =>
      rw [intercalate_cons_cons, slugPatternFrom_word _ w false hw2]
      simp only [hw1, if_false, slugPatternFrom, hyphen_not_alnum, Bool.false_eq_true,
        and_self, if_true]
      exact ih (by simp) (fun u hu => hgood u (by simp [hu]))

/-- The automaton accepts exactly the hyphen-joined non-empty words over
`[a-z0-9]`. -/
theorem matchesSlugPattern_iff (s : Str) : matchesSlugPattern s = true ↔ SlugShaped s :=
  ⟨(slugShaped_of_pattern s).1, pattern_of_slugShaped s⟩

/-- C1 (counterexample): the title `!!!` has the empty slug, which does not
match `^[a-z0-9]+(-[a-z0-9]+)*$`. -/
theorem slug_pattern_counterexample :
    slugify asciiLower (utf16 "!!!") = [] ∧
      matchesSlugPattern (slugify asciiLower (utf16 "!!!")) = false ∧
      ¬ SlugShaped (slugify asciiLower (utf16 "!!!")) :=
  ⟨by decide, by decide, fun h => by
    have h2 := (matchesSlugPattern_iff _).mpr h
    revert h2
    decide⟩

/-- C1 (amended): for every title whose lowercased text has at least one code
unit in `[a-z0-9]`, the slug derived in `generatePosts` matches
`^[a-z0-9]+(-[a-z0-9]+)*$` (it is accepted by the automaton of the pattern, and
it is a hyphen-joined sequence of non-empty words over `[a-z0-9]`); the title `Hello, World!` yields the slug
`hello-world` and the path `/posts/hello-world`, also in the post record
pushed by the loop. -/
theorem slug_matches_pattern (toLowerCase : Str → Str) (title : Str)
    (h : ∃ c ∈ toLowerCase title, isLowerAlnum c = true) :
    matchesSlugPattern (slugify toLowerCase title) = true ∧
    SlugShaped (slugify toLowerCase title) ∧
    slugify asciiLower (utf16 "Hello, World!") = utf16 "hello-world" ∧
    postPath (slugify asciiLower (utf16 "Hello, World!")) = utf16 "/posts/hello-world" ∧
    (processItem (nodeRuntime [] [] [(utf16 "2024-01-05", 1704412800000)] false)
        { file := utf16 "hello.md"
          frontmatter :=
            { title := some (Value.text (utf16 "Hello, World!")),
              date := some (Value.text (utf16 "2024-01-05")),
              author := none, description := none, keywords := none, featuredImage := none }
          content := [] }).2 =
      Except.ok
        { title := utf16 "Hello, World!", date := some (Value.text (utf16 "2024-01-05")),
          slug := utf16 "hello-world", path := utf16 "/posts/hello-world" } :=
  ⟨slugify_matches toLowerCase title h,
    (matchesSlugPattern_iff _).mp (slugify_matches toLowerCase title h), by decide, by decide,
    rfl⟩

/-- C1 (witness): the amended claim at the title `Hello, World!`. -/
theorem slug_matches_pattern_witness :
    (∃ c ∈ asciiLower (utf16 "Hello, World!"), isLowerAlnum c = true) ∧
      matchesSlugPattern (slugify asciiLower (utf16 "Hello, World!")) = true :=
  ⟨⟨104, by decide, by decide⟩,
    (slug_matches_pattern asciiLower (utf16 "Hello, World!") ⟨104, by decide, by decide⟩).1⟩

/-! ## Theorems: pagination (C2, C8, C10) -/

theorem jsSlice_nonneg {α : Type} (xs : List α) (a b : Nat) :
    jsSlice xs (a : Int) ((a : Int) + (b : Int)) = (xs.drop a).take b := by
  unfold jsSlice
  have h1 : ¬ ((a : Int) < 0) := by omega
  have h2 : ¬ ((a : Int) + (b : Int) < 0) := by omega
  simp only [h1, h2, if_false]
  by_cases ha : a ≤ xs.length
  · have hk : min (a : Int) (xs.length : Int) = (a : Int) := by omega
    rw [hk]
    by_cases hb : a + b ≤ xs.length
    · have hf : min ((a : Int) + (b : Int)) (xs.length : Int) = (a : Int) + (b : Int) := by omega
      rw [hf]
      have : ((a : Int) + (b : Int) - (a : Int)).toNat = b := by omega
      rw [this, Int.toNat_ofNat]
    · have hf : min ((a : Int) + (b : Int)) (xs.length : Int) = (xs.length : Int) := by omega
      rw [hf]
      have : ((xs.length : Int) - (a : Int)).toNat = xs.length - a := by omega
      rw [this, Int.toNat_ofNat]
      rw [List.take_of_length_le (by simp), List.take_of_length_le (by simp; omega)]
  · have hk : min (a : Int) (xs.length : Int) = (xs.length : Int) := by omega
    rw [hk, Int.toNat_ofNat]
    rw [List.drop_of_length_le (le_refl _), List.drop_of_length_le (by omega)]
    simp

/-- The posts of page `q + 1` are the five posts from index `5 * q` on. -/
theorem paginatePosts_posts {α : Type} (posts : List α) (q : Nat) :
    (paginatePosts posts ((q + 1 : Nat) : Int)).posts = (posts.drop (5 * q)).take 5 := by
  unfold paginatePosts
  simp only [POSTS_PER_PAGE]
  have h : (((q + 1 : Nat) : Int) - 1) * ((5 : Nat) : Int) = ((5 * q : Nat) : Int) := by
    push_cast; ring
  rw [h]
  exact jsSlice_nonneg posts (5 * q) 5

theorem ceilPages_eq_ceil (n : Nat) : ceilPages n = ⌈(n : ℚ) / 5⌉₊ := by
  apply eq_of_forall_ge_iff
  intro m
  rw [Nat.ceil_le, div_le_iff₀ (by norm_num : (0 : ℚ) < 5)]
  unfold ceilPages POSTS_PER_PAGE
  constructor
  · intro h
    have : n ≤ m * 5 := by omega
    exact_mod_cast this
  · intro h
    have : n ≤ m * 5 := by exact_mod_cast h
    omega

theorem totalPages_eq {α : Type} (posts : List α) (p : Int) :
    (paginatePosts posts p).pagination.totalPages = ceilPages posts.length := rfl

/-- C2: `paginatePosts` reports `totalPages = ceil(N/5)` on every page (0 when
`N = 0`, and then the listing loop visits no page); for `N ≥ 1` page 1 holds the
first 5 posts (the whole list when `N < 5`) and page `totalPages` holds
`N mod 5` posts, or 5 when 5 divides `N`. -/
theorem paginatePosts_total_first_last {α : Type} (posts : List α) :
    (∀ p : Int, (paginatePosts posts p).pagination.totalPages = ⌈(posts.length : ℚ) / 5⌉₊) ∧
    (posts.length = 0 →
      ⌈(posts.length : ℚ) / 5⌉₊ = 0 ∧ listingPageNumbers posts.length = [] ∧
        (listingPages posts).length = 0) ∧
    (1 ≤ posts.length →
      (paginatePosts posts 1).posts = posts.take 5 ∧
      (posts.length < 5 → (paginatePosts posts 1).posts = posts) ∧
      (paginatePosts posts ((⌈(posts.length : ℚ) / 5⌉₊ : Nat) : Int)).posts.length =
        if posts.length % 5 = 0 then 5 else posts.length % 5) := by
  refine ⟨fun p => ?_, fun h0 => ?_, fun h1 => ⟨?_, fun h5 => ?_, ?_⟩⟩
  · rw [totalPages_eq, ceilPages_eq_ceil]
  · rw [← ceilPages_eq_ceil]
    have : ceilPages posts.length = 0 := by rw [h0]; rfl
    simp [listingPages, listingPageNumbers, this]
  · have := paginatePosts_posts posts 0
    simpa using this
  · have := paginatePosts_posts posts 0
    simp only [Nat.zero_add, Nat.cast_one, Nat.mul_zero, List.drop_zero] at this
    rw [this, List.take_of_length_le (by omega)]
  · rw [← ceilPages_eq_ceil]
    have hT : ceilPages posts.length = (ceilPages posts.length - 1) + 1 := by
      unfold ceilPages POSTS_PER_PAGE; omega
    rw [hT, paginatePosts_posts]
    simp only [List.length_take, List.length_drop]
    unfold ceilPages POSTS_PER_PAGE
    split <;> omega

/-- Consecutive blocks of five cover a list. -/
theorem blocks_cover {α : Type} :
    ∀ (k : Nat) (xs : List α), xs.length ≤ 5 * k →
      (List.range k).flatMap (fun i => (xs.drop (5 * i)).take 5) = xs := by
  intro k
  induction k with
  | zero =>
    intro xs h
    have : xs = [] := List.length_eq_zero.mp (by omega)
    simp [this]
  | succ k ih =>
    intro xs h
    rw [List.range_succ_eq_map, List.flatMap_cons, List.flatMap_map]
    have hd : ∀ i, (xs.drop (5 * (i + 1))).take 5 = ((xs.drop 5).drop (5 * i)).take 5 := by
      intro i
      rw [List.drop_drop]
      congr 2
      omega
    simp only [Function.comp_def, Nat.succ_eq_add_one, hd]
    rw [ih (xs.drop 5) (by simp; omega)]
    simp

/-- C8: the post lists of pages 1, 2, ..., `totalPages`, concatenated in that
order, are the input list; post `i` is entry `i mod 5` of page `i / 5 + 1`; and
every page before the last holds exactly 5 posts. -/
theorem listingPages_partition {α : Type} (posts : List α) :
    (List.range' 1 (paginatePosts posts 1).pagination.totalPages).flatMap
        (fun p => (paginatePosts posts (p : Int)).posts) = posts ∧
    (listingPages posts).flatMap Page.posts = posts ∧
    (∀ i : Nat, i < posts.length →
      (paginatePosts posts ((i / 5 + 1 : Nat) : Int)).posts[i % 5]? = posts[i]?) ∧
    (∀ p : Nat, 1 ≤ p → p < (paginatePosts posts 1).pagination.totalPages →
      (paginatePosts posts (p : Int)).posts.length = 5) := by
  have key : (List.range' 1 (ceilPages posts.length)).flatMap
      (fun p => (paginatePosts posts (p : Int)).posts) = posts := by
    rw [List.range'_eq_map_range, List.flatMap_map]
    have : ∀ i : Nat, (paginatePosts posts ((1 + i : Nat) : Int)).posts =
        (posts.drop (5 * i)).take 5 := by
      intro i
      rw [Nat.add_comm]
      exact paginatePosts_posts posts i
    simp only [Function.comp_def, this]
    exact blocks_cover _ posts (by unfold ceilPages POSTS_PER_PAGE; omega)
  refine ⟨by rw [totalPages_eq]; exact key, ?_, ?_, ?_⟩
  · unfold listingPages listingPageNumbers
    rw [List.flatMap_map]
    exact key
  · intro i hi
    rw [paginatePosts_posts, List.getElem?_take, List.getElem?_drop]
    have h5 : i % 5 < 5 := Nat.mod_lt _ (by norm_num)
    simp only [h5, if_true]
    congr 1
    omega
  · intro p h1 hp
    rw [totalPages_eq] at hp
    obtain ⟨q, rfl⟩ : ∃ q, p = q + 1 := ⟨p - 1, by omega⟩
    rw [paginatePosts_posts]
    simp only [List.length_take, List.length_drop]
    unfold ceilPages POSTS_PER_PAGE at hp
    omega

/-- C10: for `1 ≤ p ≤ totalPages` the pagination of page `p` has
`currentPage = p`, `prevPage` absent exactly when `p = 1` and otherwise
`/page/<p-1>`, `nextPage` absent exactly when `p = totalPages` and otherwise
`/page/<p+1>`, and `pageNumbers` numbered `1..totalPages` in increasing order
with `isActive` set on exactly the one entry whose number is `p`. -/
theorem paginatePosts_pagination {α : Type} (posts : List α) (p : Int) (h1 : 1 ≤ p)
    (h2 : p ≤ ((paginatePosts posts p).pagination.totalPages : Int)) :
    (paginatePosts posts p).pagination.currentPage = p ∧
    ((paginatePosts posts p).pagination.prevPage = none ↔ p = 1) ∧
    (p ≠ 1 →
      (paginatePosts posts p).pagination.prevPage = some (utf16 "/page/" ++ decimal (p - 1))) ∧
    ((paginatePosts posts p).pagination.nextPage = none ↔
      p = ((paginatePosts posts p).pagination.totalPages : Int)) ∧
    (p ≠ ((paginatePosts posts p).pagination.totalPages : Int) →
      (paginatePosts posts p).pagination.nextPage = some (utf16 "/page/" ++ decimal (p + 1))) ∧
    (paginatePosts posts p).pagination.pageNumbers.map PageNumber.number =
      List.range' 1 (paginatePosts posts p).pagination.totalPages ∧
    (∀ e ∈ (paginatePosts posts p).pagination.pageNumbers,
      e.isActive = true ↔ (e.number : Int) = p) ∧
    ((paginatePosts posts p).pagination.pageNumbers.filter PageNumber.isActive).length = 1 := by
  rw [totalPages_eq] at h2
  simp only [totalPages_eq]
  refine ⟨rfl, ?_, ?_, ?_, ?_, ?_, ?_, ?_⟩
  · show (if p > 1 then _ else none) = none ↔ p = 1
    by_cases hp : p > 1
    · simp only [hp, if_true]
      constructor
      · intro h; cases h
      · intro h; omega
    · simp only [hp, if_false, true_iff]; omega
  · intro hp
    show (if p > 1 then _ else none) = _
    have : p > 1 := by omega
    simp only [this, if_true]
  · show (if p < (ceilPages posts.length : Int) then _ else none) = none ↔ _
    by_cases hp : p < (ceilPages posts.length : Int)
    · simp only [hp, if_true]
      constructor
      · intro h; cases h
      · intro h; omega
    · simp only [hp, if_false, true_iff]; omega
  · intro hp
    show (if p < (ceilPages posts.length : Int) then _ else none) = _
    have : p < (ceilPages posts.length : Int) := by omega
    simp only [this, if_true]
  · show ((List.range (ceilPages posts.length)).map _).map PageNumber.number = _
    rw [List.map_map, List.range'_eq_map_range]
    apply List.map_congr_left
    intro i _
    simp [Nat.add_comm]
  · intro e he
    change e ∈ (List.range (ceilPages posts.length)).map _ at he
    rw [List.mem_map] at he
    obtain ⟨i, _, rfl⟩ := he
    simp
  · show (((List.range (ceilPages posts.length)).map _).filter PageNumber.isActive).length = 1
    rw [← List.countP_eq_length_filter, List.countP_map]
    have hmem : p.toNat - 1 ∈ List.range (ceilPages posts.length) := by
      rw [List.mem_range]; omega
    have hcount := List.count_eq_one_of_mem (List.nodup_range _) hmem
    refine Eq.trans ?_ hcount
    rw [List.count]
    apply List.countP_congr
    intro i _
    simp only [Function.comp, decide_eq_true_eq, beq_iff_eq]
    omega

/-- C10 (witness): page 2 of seven posts. -/
theorem paginatePosts_pagination_witness :
    (paginatePosts [1, 2, 3, 4, 5, 6, 7] 2).pagination =
      { currentPage := 2, totalPages := 2, prevPage := some (utf16 "/page/1"), nextPage := none,
        pageNumbers := [{ number := 1, isActive := false }, { number := 2, isActive := true }] } ∧
    (paginatePosts [1, 2, 3, 4, 5, 6, 7] 2).pagination.prevPage =
      some (utf16 "/page/" ++ decimal (2 - 1)) :=
  ⟨by decide,
    (paginatePosts_pagination [1, 2, 3, 4, 5, 6, 7] 2 (by decide) (by decide)).2.2.1 (by decide)⟩

/-- C2 (witness): seven posts. -/
theorem paginatePosts_total_first_last_witness :
    1 ≤ [1, 2, 3, 4, 5, 6, 7].length ∧
      (paginatePosts [1, 2, 3, 4, 5, 6, 7] 1).posts = List.take 5 [1, 2, 3, 4, 5, 6, 7] :=
  ⟨by decide, ((paginatePosts_total_first_last [1, 2, 3, 4, 5, 6, 7]).2.2 (by decide)).1⟩

/-- C8 (witness): page 1 of seven posts is full. -/
theorem listingPages_partition_witness :
    (paginatePosts [1, 2, 3, 4, 5, 6, 7] ((1 : Nat) : Int)).posts.length = 5 :=
  (listingPages_partition [1, 2, 3, 4, 5, 6, 7]).2.2.2 1 (by decide) (by decide)

/-! ## Theorems: date sort (C6) -/

theorem sortInsert_perm {α : Type} (cmp : α → α → Int) (a : α) (l : List α) :
    (sortInsert cmp a l).Perm (a :: l) := by
  induction l with
  | nil => exact List.Perm.refl _
  | cons b l ih =>
    unfold sortInsert
    split
    · exact List.Perm.refl _
    · exact (List.Perm.cons b ih).trans (List.Perm.swap a b l)

theorem jsSort_perm {α : Type} (cmp : α → α → Int) (l : List α) : (jsSort cmp l).Perm l := by
  induction l with
  | nil => exact List.Perm.refl _
  | cons a l ih =>
    unfold jsSort
    exact (sortInsert_perm cmp a _).trans (List.Perm.cons a ih)

theorem sortInsert_sorted {α : Type} (time : α → Option Int) (a : α) (ta : Int)
    (ha : time a = some ta) (l : List α) (hv : ∀ x ∈ l, ∃ t, time x = some t)
    (hs : l.Pairwise (DateGE time)) :
    (sortInsert (compareDates time) a l).Pairwise (DateGE time) := by
  induction l with
  | nil => simp [sortInsert]
  | cons b l ih =>
    obtain ⟨tb, hb⟩ := hv b (by simp)
    have hvl : ∀ x ∈ l, ∃ t, time x = some t := fun x hx => hv x (by simp [hx])
    rw [List.pairwise_cons] at hs
    unfold sortInsert
    have hcmp : compareDates time a b = tb - ta := by simp [compareDates, ha, hb]
    rw [hcmp]
    split
    · rename_i hle
      rw [List.pairwise_cons]
      refine ⟨?_, List.pairwise_cons.mpr hs⟩
      intro x hx
      rcases List.mem_cons.mp hx with rfl | hx
      · exact ⟨ta, tb, ha, hb, by omega⟩
      · obtain ⟨tb2, tx, hb2, hx2, hle2⟩ := hs.1 x hx
        rw [hb] at hb2
        cases hb2
        exact ⟨ta, tx, ha, hx2, by omega⟩
    · rename_i hgt
      rw [List.pairwise_cons]
      refine ⟨?_, ih hvl hs.2⟩
      intro x hx
      rcases List.mem_cons.mp ((sortInsert_perm _ a l).subset hx) with rfl | hx
      · exact ⟨tb, ta, hb, ha, by omega⟩
      · exact hs.1 x hx

theorem jsSort_sorted {α : Type} (time : α → Option Int) (l : List α)
    (hv : ∀ x ∈ l, ∃ t, time x = some t) :
    (jsSort (compareDates time) l).Pairwise (DateGE time) := by
  induction l with
  | nil => simp [jsSort]
  | cons a l ih =>
    obtain ⟨ta, ha⟩ := hv a (by simp)
    have hvl : ∀ x ∈ l, ∃ t, time x = some t := fun x hx => hv x (by simp [hx])
    unfold jsSort
    exact sortInsert_sorted time a ta ha _
      (fun x hx => hvl x ((jsSort_perm _ l).subset hx)) (ih hvl)

/-- When the title is a string, the date has a valid time value and the
values of the `replace` chain convert to text, the loop writes the post page
of the item with those values and pushes its post. -/
theorem processItem_ok (rt : Runtime) (item : ContentFile)
    (title description author keywords featuredImage : Str) (time : Int)
    (ht : item.frontmatter.title = some (Value.text title))
    (h1 : shownOf item.frontmatter.description = some description)
    (h2 : shownOf item.frontmatter.author = some author)
    (h3 : orElse item.frontmatter.keywords [] = some keywords)
    (h4 : orElse item.frontmatter.featuredImage defaultImage = some featuredImage)
    (hd : timeOf rt item.frontmatter.date = some time) :
    processItem rt item =
      ((substituteImages rt (rt.marked item.content)).2.map Artifact.image ++
          [Artifact.postPage (postPageOf rt item)
            { siteName := siteName
              title := title
              description := description
              author := author
              keywords := keywords
              featuredImage := featuredImage
              url := siteUrl ++ utf16 "/posts/" ++ slugify rt.toLowerCase title
              isoDate := time
              content := (substituteImages rt (rt.marked item.content)).1 }],
        Except.ok
          { title := title, date := item.frontmatter.date,
            slug := slugify rt.toLowerCase title,
            path := postPath (slugify rt.toLowerCase title) }) := by
  unfold processItem postPageOf titleText
  simp only [ht, h1, h2, h3, h4, hd]

/-- A title that is absent or not a string ends the iteration at the slug
derivation, before anything is written. -/
theorem processItem_no_title (rt : Runtime) (item : ContentFile)
    (h : ∀ title, item.frontmatter.title ≠ some (Value.text title)) :
    processItem rt item = ([], Except.error Failure.slugStep) := by
  unfold processItem
  split
  · rename_i title ht
    exact absurd ht (h title)
  · rfl

/-- A value of the `replace` chain that does not convert to text, or a date
without a valid time value, ends the iteration in the `replace` chain, after
the images and before the page is written. -/
theorem processItem_incomplete (rt : Runtime) (item : ContentFile) (title : Str)
    (ht : item.frontmatter.title = some (Value.text title))
    (h : shownOf item.frontmatter.description = none ∨ shownOf item.frontmatter.author = none ∨
      orElse item.frontmatter.keywords [] = none ∨
      orElse item.frontmatter.featuredImage defaultImage = none ∨
      timeOf rt item.frontmatter.date = none) :
    processItem rt item =
      ((substituteImages rt (rt.marked item.content)).2.map Artifact.image,
        Except.error Failure.templateStep) := by
  unfold processItem
  simp only [ht]
  split
  · rename_i e1 e2 e3 e4 e5
    rcases h with h | h | h | h | h
    · rw [h] at e1; cases e1
    · rw [h] at e2; cases e2
    · rw [h] at e3; cases e3
    · rw [h] at e4; cases e4
    · rw [h] at e5; cases e5
  · rfl

/-- A date without a valid time value ends the iteration in the `replace`
chain. -/
theorem processItem_no_date (rt : Runtime) (item : ContentFile) (title : Str)
    (ht : item.frontmatter.title = some (Value.text title))
    (hd : timeOf rt item.frontmatter.date = none) :
    processItem rt item =
      ((substituteImages rt (rt.marked item.content)).2.map Artifact.image,
        Except.error Failure.templateStep) :=
  processItem_incomplete rt item title ht (Or.inr (Or.inr (Or.inr (Or.inr hd))))

/-- An iteration either throws, having written at most images, or writes
images and the post page of the item and pushes a post with a valid date. -/
theorem processItem_cases (rt : Runtime) (item : ContentFile) :
    (∃ (images : List Str) (e : Failure),
      processItem rt item = (images.map Artifact.image, Except.error e)) ∨
    (∃ (images : List Str) (values : PostValues) (post : Post),
      processItem rt item =
        (images.map Artifact.image ++ [Artifact.postPage (postPageOf rt item) values],
          Except.ok post) ∧
      ∃ t, timeOf rt post.date = some t) := by
  by_cases hT : ∃ title, item.frontmatter.title = some (Value.text title)
  · obtain ⟨title, ht⟩ := hT
    rcases h1 : shownOf item.frontmatter.description with _ | description
    · exact Or.inl ⟨_, _, processItem_incomplete rt item title ht (Or.inl h1)⟩
    rcases h2 : shownOf item.frontmatter.author with _ | author
    · exact Or.inl ⟨_, _, processItem_incomplete rt item title ht (Or.inr (Or.inl h2))⟩
    rcases h3 : orElse item.frontmatter.keywords [] with _ | keywords
    · exact Or.inl ⟨_, _, processItem_incomplete rt item title ht (Or.inr (Or.inr (Or.inl h3)))⟩
    rcases h4 : orElse item.frontmatter.featuredImage defaultImage with _ | featuredImage
    · exact Or.inl
        ⟨_, _, processItem_incomplete rt item title ht (Or.inr (Or.inr (Or.inr (Or.inl h4))))⟩
    rcases hd : timeOf rt item.frontmatter.date with _ | time
    · exact Or.inl ⟨_, _, processItem_no_date rt item title ht hd⟩
    exact Or.inr ⟨_, _, _,
      processItem_ok rt item title description author keywords featuredImage time ht h1 h2 h3 h4
        hd, ⟨time, hd⟩⟩
  · left
    refine ⟨[], _, processItem_no_title rt item ?_⟩
    intro title ht
    exact hT ⟨title, ht⟩

/-- A post pushed by the loop has a valid date. -/
theorem processItem_ok_date (rt : Runtime) (item : ContentFile) (written : List Artifact)
    (post : Post) (h : processItem rt item = (written, Except.ok post)) :
    ∃ t, timeOf rt post.date = some t := by
  rcases processItem_cases rt item with ⟨images, e, he⟩ | ⟨images, values, post2, he, ht⟩
  · rw [he] at h
    cases h
  · rw [he] at h
    simp only [Prod.mk.injEq, Except.ok.injEq] at h
    rw [← h.2]
    exact ht

theorem generateItems_ok_dates (rt : Runtime) :
    ∀ (items : List ContentFile) (acc : List Post) (written : List Artifact)
      (posts : List Post),
      generateItems rt items acc = (written, Except.ok posts) →
      (∀ x ∈ acc, ∃ t, timeOf rt x.date = some t) →
      ∀ x ∈ posts, ∃ t, timeOf rt x.date = some t := by
  intro items
  induction items with
  | nil =>
    intro acc written posts h hacc
    simp only [generateItems, Prod.mk.injEq, Except.ok.injEq] at h
    obtain ⟨_, rfl⟩ := h
    exact hacc
  | cons item items ih =>
    intro acc written posts h hacc
    unfold generateItems at h
    split at h
    · split at h
      · cases h
      · rename_i w post hp
        simp only [Prod.mk.injEq] at h
        refine ih (acc ++ [post]) _ posts (Prod.ext rfl h.2) ?_
        intro x hx
        rcases List.mem_append.mp hx with hx | hx
        · exact hacc x hx
        · simp only [List.mem_singleton] at hx
          subst hx
          exact processItem_ok_date rt item w x hp
    · exact ih acc written posts h hacc

/-- C6: when `generatePosts` completes, the sequence written to `posts.json`
is a permutation of the posts pushed by the loop and is ordered by date
descending: for all `i < j`, the time value of `posts[i].date` is at least that
of `posts[j].date`. -/
theorem manifest_sorted (rt : Runtime) (items : List ContentFile) (written : List Artifact)
    (posts : List Post) (h : generatePosts rt items = (written, Except.ok posts)) :
    ∃ prior generated, generateItems rt items [] = (prior, Except.ok generated) ∧
      posts.Perm generated ∧
      Artifact.manifest (rt.pathJoin [outputDir rt, utf16 "posts.json"]) posts ∈ written ∧
      ∀ (i j : Nat) (_ : i < j) (hj : j < posts.length),
        ∃ ti tj, timeOf rt (posts.get ⟨i, by omega⟩).date = some ti ∧
          timeOf rt (posts.get ⟨j, hj⟩).date = some tj ∧ tj ≤ ti := by
  unfold generatePosts at h
  split at h
  · cases h
  · rename_i prior generated hg
    simp only [Prod.mk.injEq, Except.ok.injEq] at h
    obtain ⟨hw, hp⟩ := h
    refine ⟨prior, generated, hg, ?_, ?_, ?_⟩
    · rw [← hp]
      exact jsSort_perm _ _
    · rw [← hw, ← hp]
      simp
    · intro i j hij hj
      have hv := generateItems_ok_dates rt items [] prior generated hg (by simp)
      have hs := jsSort_sorted (fun p : Post => timeOf rt p.date) generated hv
      have hs2 : posts.Pairwise (DateGE fun p : Post => timeOf rt p.date) := by
        rw [← hp]; exact hs
      have := List.pairwise_iff_get.mp hs2 ⟨i, by omega⟩ ⟨j, hj⟩ (by simpa using hij)
      exact this

/-- C6 (witness): two posts pushed in ascending date order. -/
theorem manifest_sorted_witness :
    (generatePosts exampleRuntime
        [exampleItem "a.md" (some "A") (some "2024-01-05"),
          exampleItem "b.md" (some "B") (some "2024-02-01")]).2 =
      Except.ok
        [{ title := utf16 "B", date := some (Value.text (utf16 "2024-02-01")), slug := utf16 "b",
            path := utf16 "/posts/b" },
          { title := utf16 "A", date := some (Value.text (utf16 "2024-01-05")), slug := utf16 "a",
            path := utf16 "/posts/a" }] ∧
    ∃ prior generated,
      generateItems exampleRuntime
          [exampleItem "a.md" (some "A") (some "2024-01-05"),
            exampleItem "b.md" (some "B") (some "2024-02-01")] [] =
        (prior, Except.ok generated) ∧
      List.Perm
        [({ title := utf16 "B", date := some (Value.text (utf16 "2024-02-01")), slug := utf16 "b",
            path := utf16 "/posts/b" } : Post),
          { title := utf16 "A", date := some (Value.text (utf16 "2024-01-05")), slug := utf16 "a",
            path := utf16 "/posts/a" }] generated :=
  ⟨rfl,
    (manifest_sorted exampleRuntime
        [exampleItem "a.md" (some "A") (some "2024-01-05"),
          exampleItem "b.md" (some "B") (some "2024-02-01")]
        (generatePosts exampleRuntime
          [exampleItem "a.md" (some "A") (some "2024-01-05"),
            exampleItem "b.md" (some "B") (some "2024-02-01")]).1
        [{ title := utf16 "B", date := some (Value.text (utf16 "2024-02-01")), slug := utf16 "b",
            path := utf16 "/posts/b" },
          { title := utf16 "A", date := some (Value.text (utf16 "2024-01-05")), slug := utf16 "a",
            path := utf16 "/posts/a" }]
        rfl).elim
      fun prior hg => hg.elim fun generated hh => ⟨prior, generated, hh.1, hh.2.1⟩⟩

/-! ## Theorems: image transcoding (C9, C7) -/

theorem nonAlnumUnit_shrinks : Shrinks nonAlnumUnit := by
  intro b s m rest h
  cases s with
  | nil => simp [nonAlnumUnit] at h
  | cons c cs =>
    simp only [nonAlnumUnit] at h
    split at h
    · simp at h
    · simp only [Option.some.injEq, Prod.mk.injEq, true_and] at h
      subst h
      simp

/-- The `replace` of `processImage` turns each code unit outside `[a-zA-Z0-9]`
into a hyphen and copies the others. -/
theorem replace_nonAlnumUnit (s : Str) :
    replaceAll nonAlnumUnit (fun _ => [hyphen]) s =
      s.map fun c => if isAlnumIgnoreCase c then c else hyphen := by
  unfold replaceAll
  rw [scan_eq_scanFrom, scanFrom_unanchored nonAlnumUnit (fun _ _ => rfl) true]
  induction s with
  | nil => simp [scanFrom_nil]
  | cons c cs ih =>
    rw [scanFrom_cons nonAlnumUnit nonAlnumUnit_shrinks]
    by_cases hc : isAlnumIgnoreCase c = true
    · simp [nonAlnumUnit, hc, Piece.render, ih]
    · simp [nonAlnumUnit, hc, Piece.render, ih]

theorem alnum_lt_128 (c : Nat) (h : isAlnumIgnoreCase c = true) : c < 128 := by
  simp only [isAlnumIgnoreCase, isLower, isUpper, isDigit, Bool.or_eq_true, Bool.and_eq_true,
    decide_eq_true_eq] at h
  omega

theorem asciiLowerUnit_class (c : Nat) :
    isLowerAlnum (asciiLowerUnit (if isAlnumIgnoreCase c then c else hyphen)) = true ∨
      asciiLowerUnit (if isAlnumIgnoreCase c then c else hyphen) = hyphen := by
  by_cases hc : isAlnumIgnoreCase c = true
  · left
    simp only [hc, if_true]
    simp only [isAlnumIgnoreCase, isLower, isUpper, isDigit, Bool.or_eq_true, Bool.and_eq_true,
      decide_eq_true_eq] at hc
    unfold asciiLowerUnit
    split
    · rename_i hu
      simp only [isUpper, Bool.and_eq_true, decide_eq_true_eq] at hu
      simp only [isLowerAlnum, isLower, isDigit, Bool.or_eq_true, Bool.and_eq_true,
        decide_eq_true_eq]
      omega
    · rename_i hu
      simp only [isUpper, Bool.and_eq_true, decide_eq_true_eq] at hu
      simp only [isLowerAlnum, isLower, isDigit, Bool.or_eq_true, Bool.and_eq_true,
        decide_eq_true_eq]
      omega
  · right
    simp only [hc, Bool.false_eq_true, if_false]
    decide

/-- C9 (counterexample): for `my photo.png` the sanitized base name is
`my-photo`, which contains a hyphen and is not the stripped name `myphoto`. -/
theorem sanitized_basename_counterexample :
    sanitizedBasename exampleRuntime (utf16 "/site/content/my photo.png") = utf16 "my-photo" ∧
    ¬ (∀ c ∈ sanitizedBasename exampleRuntime (utf16 "/site/content/my photo.png"),
        isLowerAlnum c = true) ∧
    sanitizedBasename exampleRuntime (utf16 "/site/content/my photo.png") ≠
      (asciiLower (exampleRuntime.basename (utf16 "/site/content/my photo.png")
        (exampleRuntime.extname (utf16 "/site/content/my photo.png")))).filter isLowerAlnum ∧
    (processImage exampleRuntime (utf16 "/site/content/my photo.png")).result =
      utf16 "/images/my-photo.webp" := by
  decide

/-- C9 (amended): the sanitized base name is the file's base name (extension
removed) in which every code unit outside `[a-zA-Z0-9]` is replaced by a
hyphen and the rest is lowercased; it has the length of the base name and
consists only of code units in `[a-z0-9-]`; and when the image is read and
transcoded, the returned path is `/images/<that name>.webp`. -/
theorem sanitized_basename (rt : Runtime) (imagePath : Str)
    (hlower : ∀ s, IsAscii s → rt.toLowerCase s = asciiLower s) :
    sanitizedBasename rt imagePath =
      (rt.basename imagePath (rt.extname imagePath)).map
        (fun c => asciiLowerUnit (if isAlnumIgnoreCase c then c else hyphen)) ∧
    (sanitizedBasename rt imagePath).length =
      (rt.basename imagePath (rt.extname imagePath)).length ∧
    (∀ c ∈ sanitizedBasename rt imagePath, isLowerAlnum c = true ∨ c = hyphen) ∧
    (∀ buffer,
      (if startsWith (utf16 "http://") imagePath || startsWith (utf16 "https://") imagePath
        then rt.fetch imagePath else rt.readFileSync imagePath) = some buffer →
      rt.sharpToFile buffer
        (rt.pathJoin [imagesDir rt, sanitizedBasename rt imagePath ++ utf16 ".webp"]) = true →
      (processImage rt imagePath).result =
        utf16 "/images/" ++ sanitizedBasename rt imagePath ++ utf16 ".webp") := by
  have heq : sanitizedBasename rt imagePath =
      (rt.basename imagePath (rt.extname imagePath)).map
        (fun c => asciiLowerUnit (if isAlnumIgnoreCase c then c else hyphen)) := by
    unfold sanitizedBasename
    rw [replace_nonAlnumUnit, hlower]
    · simp [asciiLower, List.map_map, Function.comp_def]
    · intro c hc
      rw [List.mem_map] at hc
      obtain ⟨d, _, rfl⟩ := hc
      split
      · rename_i hd; exact alnum_lt_128 d hd
      · decide
  refine ⟨heq, ?_, ?_, ?_⟩
  · rw [heq, List.length_map]
  · intro c hc
    rw [heq, List.mem_map] at hc
    obtain ⟨d, _, rfl⟩ := hc
    exact asciiLowerUnit_class d
  · intro buffer hb hs
    unfold processImage
    simp only [hb, hs, if_true]

/-- C9 (witness): the amended claim at `my photo.png`. -/
theorem sanitized_basename_witness :
    sanitizedBasename exampleRuntime (utf16 "/site/content/my photo.png") =
      (exampleRuntime.basename (utf16 "/site/content/my photo.png")
        (exampleRuntime.extname (utf16 "/site/content/my photo.png"))).map
        (fun c => asciiLowerUnit (if isAlnumIgnoreCase c then c else hyphen)) :=
  (sanitized_basename exampleRuntime (utf16 "/site/content/my photo.png") (fun _ _ => rfl)).1

/-! ## Theorems: image substitution (C3, C7) -/

theorem dropWhile_ne_append (x : Nat) (l r : Str) (h : x ∉ l) :
    (l ++ x :: r).dropWhile (fun c => c != x) = x :: r := by
  induction l with
  | nil => simp [List.dropWhile]
  | cons a l ih =>
    have ha : (a != x) = true := by
      simp only [bne_iff_ne, ne_eq]
      exact fun e => h (by simp [e])
    have hl : x ∉ l := fun e => h (by simp [e])
    rw [List.cons_append, List.dropWhile_cons, if_pos ha, ih hl]

theorem takeWhile_ne_append (x : Nat) (l r : Str) (h : x ∉ l) :
    (l ++ x :: r).takeWhile (fun c => c != x) = l := by
  induction l with
  | nil => simp [List.takeWhile]
  | cons a l ih =>
    have ha : (a != x) = true := by
      simp only [bne_iff_ne, ne_eq]
      exact fun e => h (by simp [e])
    have hl : x ∉ l := fun e => h (by simp [e])
    rw [List.cons_append, List.takeWhile_cons, if_pos ha, ih hl]

theorem imageRefText_append (alt path rest : Str) :
    imageRefText alt path ++ rest = 33 :: 91 :: (alt ++ 93 :: 40 :: (path ++ 41 :: rest)) := by
  have h1 : utf16 "![" = [33, 91] := by decide
  have h2 : utf16 "](" = [93, 40] := by decide
  have h3 : utf16 ")" = [41] := by decide
  simp [imageRefText, h1, h2, h3]

theorem imageRefText_eq (alt path : Str) :
    imageRefText alt path = 33 :: 91 :: (alt ++ 93 :: 40 :: (path ++ [41])) := by
  have := imageRefText_append alt path []
  simpa using this

theorem afterLiteral_suffix :
    ∀ (pre s rest : Str), afterLiteral pre s = some rest → s = pre ++ rest := by
  intro pre
  induction pre with
  | nil =>
    intro s rest h
    simp only [afterLiteral, Option.some.injEq] at h
    simp [h]
  | cons a pre ih =>
    intro s rest h
    cases s with
    | nil => simp [afterLiteral] at h
    | cons b s =>
      simp only [afterLiteral] at h
      split at h
      · rename_i hab
        subst hab
        rw [ih s rest h]
        rfl
      · cases h

theorem afterLiteral_append (pre rest : Str) : afterLiteral pre (pre ++ rest) = some rest := by
  induction pre with
  | nil => cases rest <;> rfl
  | cons a pre ih => simp [afterLiteral, ih]

theorem imageRegex_shrinks : Shrinks imageRegex := by
  intro b s m rest h
  unfold imageRegex at h
  split at h
  · rename_i t
    split at h
    · rename_i u hu
      split at h
      · rename_i rest2 hr
        split at h
        · cases h
        · simp only [Option.some.injEq, Prod.mk.injEq] at h
          obtain ⟨_, rfl⟩ := h
          have h1 := length_dropWhile_le (fun c => c != 93) t
          have h2 := length_dropWhile_le (fun c => c != 41) u
          rw [hu] at h1
          rw [hr] at h2
          simp only [List.length_cons] at h1 h2 ⊢
          omega
      · cases h
    · cases h
  · cases h

theorem placeholderRegex_shrinks : Shrinks placeholderRegex := by
  intro b s m rest h
  unfold placeholderRegex at h
  split at h
  · rename_i t
    split at h
    · rename_i u hu
      split at h
      · rename_i rest2 hr
        simp only [Option.some.injEq, Prod.mk.injEq, true_and] at h
        subst h
        have h1 := length_dropWhile_le (fun c => c != 93) t
        rw [hu] at h1
        have h2 := congrArg List.length (afterLiteral_suffix _ _ _ hr)
        simp only [List.length_cons, List.length_append] at h1 h2 ⊢
        omega
      · cases h
    · cases h
  · cases h

theorem imageRegex_ref (b : Bool) (alt path rest : Str) (h1 : 93 ∉ alt) (h2 : 41 ∉ path)
    (h3 : path ≠ []) :
    imageRegex b (imageRefText alt path ++ rest) = some ((alt, path), rest) := by
  rw [imageRefText_append]
  simp only [imageRegex, dropWhile_ne_append 93 alt _ h1, takeWhile_ne_append 93 alt _ h1,
    dropWhile_ne_append 41 path _ h2, takeWhile_ne_append 41 path _ h2, h3, if_false]

theorem imageRegex_miss (b : Bool) (c : Nat) (s : Str) (h : c ≠ 33 ∨ NoBracketHead s) :
    imageRegex b (c :: s) = none := by
  unfold imageRegex
  split
  · rename_i t heq
    simp only [List.cons.injEq] at heq
    rcases h with h | h
    · exact absurd heq.1 h
    · exfalso
      apply h
      rw [heq.2]
      rfl
  · rfl

theorem placeholderRegex_miss (b : Bool) (c : Nat) (s : Str) (h : c ≠ 33 ∨ NoBracketHead s) :
    placeholderRegex b (c :: s) = none := by
  unfold placeholderRegex
  split
  · rename_i t heq
    simp only [List.cons.injEq] at heq
    rcases h with h | h
    · exact absurd heq.1 h
    · exfalso
      apply h
      rw [heq.2]
      rfl
  · rfl

theorem placeholderRegex_placeholder (b : Bool) (alt rest : Str) (h1 : 93 ∉ alt) :
    placeholderRegex b (imageRefText alt (utf16 "processing...") ++ rest) = some ((), rest) := by
  rw [imageRefText_append]
  have hlit : (40 :: (utf16 "processing..." ++ 41 :: rest)) = utf16 "(processing...)" ++ rest := by
    have : utf16 "(processing...)" = 40 :: (utf16 "processing..." ++ [41]) := by decide
    rw [this]
    simp
  simp only [placeholderRegex, dropWhile_ne_append 93 alt _ h1, hlit, afterLiteral_append]

/-- A literal ending in `)` is found only in front of the first `)`. -/
theorem afterLiteral_closing :
    ∀ (lit path rest : Str), 41 ∉ lit → 41 ∉ path → path ≠ lit →
      afterLiteral (lit ++ [41]) (path ++ 41 :: rest) = none := by
  intro lit
  induction lit with
  | nil =>
    intro path rest _ hp hne
    cases path with
    | nil => exact absurd rfl hne
    | cons d path =>
      have hd : (41 : Nat) ≠ d := fun e => hp (by simp [e])
      simp [afterLiteral, hd]
  | cons a lit ih =>
    intro path rest hl hp hne
    cases path with
    | nil =>
      have ha : a ≠ 41 := fun e => hl (by simp [e])
      simp [afterLiteral, ha]
    | cons d path =>
      simp only [List.cons_append, afterLiteral]
      split
      · rename_i had
        subst had
        apply ih
        · exact fun e => hl (by simp [e])
        · exact fun e => hp (by simp [e])
        · intro e
          exact hne (by rw [e])
      · rfl

theorem placeholderRegex_other (b : Bool) (alt path rest : Str) (h1 : 93 ∉ alt)
    (h2 : 41 ∉ path) (h3 : path ≠ utf16 "processing...") :
    placeholderRegex b (33 :: 91 :: (alt ++ 93 :: 40 :: (path ++ 41 :: rest))) = none := by
  have hlit : utf16 "(processing...)" = 40 :: (utf16 "processing..." ++ [41]) := by decide
  have hno : 41 ∉ utf16 "processing..." := by decide
  have := afterLiteral_closing (utf16 "processing...") path rest hno h2 h3
  have hstep : afterLiteral (utf16 "(processing...)") (40 :: (path ++ 41 :: rest)) = none := by
    rw [hlit]
    show (if 40 = 40 then afterLiteral (utf16 "processing..." ++ [41]) (path ++ 41 :: rest)
      else none) = none
    rw [if_pos rfl, this]
  simp only [placeholderRegex, dropWhile_ne_append 93 alt _ h1, hstep]

/-- A stretch of the subject at none of whose indices the pattern matches is
copied. -/
theorem scanFrom_lits {μ : Type} (p : Pattern μ) (hp : Shrinks p) (rest : Str) :
    ∀ (w : Str), (∀ u c v, w = u ++ c :: v → p false (c :: (v ++ rest)) = none) →
      scanFrom p false (w ++ rest) = w.map Piece.lit ++ scanFrom p false rest := by
  intro w
  induction w with
  | nil =>
    intro _
    rfl
  | cons c w ih =>
    intro h
    have hc := h [] c w rfl
    rw [List.cons_append, scanFrom_miss p hp false c _ hc, List.map_cons, List.cons_append]
    congr 1
    apply ih
    intro u d v huv
    exact h (c :: u) d v (by rw [huv]; rfl)

theorem noBracketHead_cons (d : Nat) (rest : Str) (hd : d ≠ 91) : NoBracketHead (d :: rest) := by
  intro h
  simp only [List.head?_cons, Option.some.injEq] at h
  exact hd h

theorem sourceOf_cons (seg : Segment) (doc : List Segment) :
    sourceOf (seg :: doc) = seg.source ++ sourceOf doc := by
  simp [sourceOf]

theorem noRefStart_follow (s rest : Str) (next : Option Nat) (h : NoRefStart s next)
    (hrest : rest.head? = next) (u v : Str) (huv : s = u ++ 33 :: v) :
    NoBracketHead (v ++ rest) := by
  have := h u v huv
  cases v with
  | nil =>
    intro h0
    apply this
    rw [List.nil_append] at h0 ⊢
    rw [← hrest, h0]
    rfl
  | cons d v =>
    intro h0
    apply this
    simpa using h0

theorem noRefStart_of_no_bang (s : Str) (next : Option Nat) (h : 33 ∉ s) : NoRefStart s next := by
  intro u v huv
  exact absurd (by rw [huv]; simp) h

theorem head_source_marked (rt : Runtime) (doc : List Segment) :
    (sourceOf (doc.map (Segment.marked rt))).head? = (sourceOf doc).head? := by
  induction doc with
  | nil => rfl
  | cons seg doc ih =>
    rw [List.map_cons, sourceOf_cons, sourceOf_cons]
    cases seg with
    | text s =>
      cases s with
      | nil => simpa [Segment.marked, Segment.source] using ih
      | cons c s => simp [Segment.marked, Segment.source]
    | ref alt path =>
      by_cases hl : resolvesLocally rt path = true
      · simp only [Segment.marked, hl, if_true, Segment.source]
        rw [imageRefText_append, imageRefText_append]
        rfl
      · simp only [Segment.marked, hl, Bool.false_eq_true, if_false, Segment.source]
        rw [imageRefText_append, imageRefText_append]
        rfl

/-- A stretch in which no `!` is directly followed by `[` holds no match of
either pattern. -/
theorem scanFrom_text {μ : Type} (p : Pattern μ) (hp : Shrinks p)
    (hmiss : ∀ (c : Nat) (t : Str), c ≠ 33 ∨ NoBracketHead t → p false (c :: t) = none)
    (s rest : Str) (h : NoRefStart s rest.head?) :
    scanFrom p false (s ++ rest) = s.map Piece.lit ++ scanFrom p false rest := by
  apply scanFrom_lits p hp
  intro u c v huv
  apply hmiss
  by_cases hc : c = 33
  · subst hc
    right
    exact noRefStart_follow s rest _ h rfl u v huv
  · left
    exact hc

/-- The first scan of a plain fragment finds exactly its references. -/
theorem scan_imageRegex_source (rt : Runtime) :
    ∀ doc : List Segment, PlainDoc rt doc →
      scanFrom imageRegex false (sourceOf doc) = doc.flatMap Segment.firstPieces := by
  intro doc
  induction doc with
  | nil => intro _; simp [sourceOf, scanFrom_nil]
  | cons seg doc ih =>
    intro h
    rw [sourceOf_cons, List.flatMap_cons]
    cases seg with
    | text s =>
      obtain ⟨hs, hdoc⟩ := h
      rw [← ih hdoc]
      simp only [Segment.source, Segment.firstPieces]
      exact scanFrom_text imageRegex imageRegex_shrinks
        (fun c t hct => imageRegex_miss false c t hct) s _ hs
    | ref alt path =>
      obtain ⟨h1, h2, h3, _, hdoc⟩ := h
      rw [← ih hdoc]
      simp only [Segment.source, Segment.firstPieces, List.singleton_append]
      have hm := imageRegex_ref false alt path (sourceOf doc) h1 h2 h3
      rw [imageRefText_append] at hm ⊢
      exact scanFrom_hit imageRegex imageRegex_shrinks false _ _ _ _ hm

theorem render_lits {μ : Type} (f : μ → Str) (s : Str) :
    (s.map Piece.lit).flatMap (Piece.render f) = s := by
  induction s with
  | nil => rfl
  | cons c s ih => simp [Piece.render, ih]

/-- The text after the first `replace` of a plain fragment. -/
theorem firstPass_source (rt : Runtime) (doc : List Segment) :
    (doc.flatMap Segment.firstPieces).flatMap (Piece.render (firstPassText rt)) =
      sourceOf (doc.map (Segment.marked rt)) := by
  induction doc with
  | nil => rfl
  | cons seg doc ih =>
    rw [List.flatMap_cons, List.flatMap_append, ih, List.map_cons, sourceOf_cons]
    congr 1
    cases seg with
    | text s => simp only [Segment.firstPieces, Segment.marked, Segment.source, render_lits]
    | ref alt path =>
      simp only [Segment.firstPieces, Segment.marked, List.flatMap_cons, List.flatMap_nil,
        List.append_nil, Piece.render, firstPassText, resolvesLocally]
      split <;> rfl

/-- The second scan copies a reference whose path is not `processing...` and
has no `!` directly followed by `[`. -/
theorem scan_placeholderRegex_other (alt path rest : Str) (h1 : 93 ∉ alt) (h2 : 41 ∉ path)
    (h3 : path ≠ utf16 "processing...") (h4 : NoRefStart path (some 41)) :
    scanFrom placeholderRegex false (imageRefText alt path ++ rest) =
      (imageRefText alt path).map Piece.lit ++ scanFrom placeholderRegex false rest := by
  rw [imageRefText_append, imageRefText_eq]
  rw [scanFrom_miss _ placeholderRegex_shrinks false 33 _
    (placeholderRegex_other false alt path rest h1 h2 h3)]
  rw [scanFrom_miss _ placeholderRegex_shrinks false 91 _
    (placeholderRegex_miss false 91 _ (Or.inl (by decide)))]
  rw [scanFrom_lits placeholderRegex placeholderRegex_shrinks _ alt]
  · rw [scanFrom_miss _ placeholderRegex_shrinks false 93 _
      (placeholderRegex_miss false 93 _ (Or.inl (by decide)))]
    rw [scanFrom_miss _ placeholderRegex_shrinks false 40 _
      (placeholderRegex_miss false 40 _ (Or.inl (by decide)))]
    rw [scanFrom_text placeholderRegex placeholderRegex_shrinks
      (fun c t hct => placeholderRegex_miss false c t hct) path (41 :: rest) h4]
    rw [scanFrom_miss _ placeholderRegex_shrinks false 41 _
      (placeholderRegex_miss false 41 _ (Or.inl (by decide)))]
    simp
  · intro u c v huv
    by_cases hc : c = 33
    · subst hc
      cases v with
      | nil =>
        apply placeholderRegex_miss
        right
        exact noBracketHead_cons _ _ (by decide)
      | cons d v =>
        by_cases hd : d = 91
        · subst hd
          have hv : 93 ∉ v := by
            intro hv
            exact h1 (by rw [huv]; simp [hv])
          exact placeholderRegex_other false v path rest hv h2 h3
        · apply placeholderRegex_miss
          right
          exact noBracketHead_cons _ _ hd
    · exact placeholderRegex_miss false c _ (Or.inl hc)

/-- The second scan of the marked fragment finds exactly the placeholders. -/
theorem scan_placeholderRegex_marked (rt : Runtime) :
    ∀ doc : List Segment, PlainDoc rt doc →
      scanFrom placeholderRegex false (sourceOf (doc.map (Segment.marked rt))) =
        doc.flatMap (Segment.secondPieces rt) := by
  intro doc
  induction doc with
  | nil => intro _; simp [sourceOf, scanFrom_nil]
  | cons seg doc ih =>
    intro h
    rw [List.map_cons, sourceOf_cons, List.flatMap_cons]
    cases seg with
    | text s =>
      obtain ⟨hs, hdoc⟩ := h
      rw [← ih hdoc]
      simp only [Segment.marked, Segment.source, Segment.secondPieces]
      apply scanFrom_text placeholderRegex placeholderRegex_shrinks
        (fun c t hct => placeholderRegex_miss false c t hct)
      rw [head_source_marked]
      exact hs
    | ref alt path =>
      obtain ⟨h1, h2, h3, h4, hdoc⟩ := h
      rw [← ih hdoc]
      by_cases hl : resolvesLocally rt path = true
      · simp only [Segment.marked, hl, if_true, Segment.source, Segment.secondPieces,
          List.singleton_append]
        have hm := placeholderRegex_placeholder false alt
          (sourceOf (doc.map (Segment.marked rt))) h1
        rw [imageRefText_append] at hm ⊢
        exact scanFrom_hit placeholderRegex placeholderRegex_shrinks false _ _ _ _ hm
      · simp only [Segment.marked, hl, Bool.false_eq_true, if_false, Segment.source,
          Segment.secondPieces]
        have hl2 : resolvesLocally rt path = false := by simpa using hl
        exact scan_placeholderRegex_other alt path _ h1 h2 (h4 hl2).1 (h4 hl2).2

/-- A plain fragment is one on which both patterns meet exactly the
references. -/
theorem aligned_of_plain (rt : Runtime) (doc : List Segment) (h : PlainDoc rt doc) :
    Aligned rt doc := by
  constructor
  · rw [scan_eq_scanFrom, scanFrom_unanchored imageRegex (fun _ _ => rfl) true]
    exact scan_imageRegex_source rt doc h
  · rw [scan_eq_scanFrom, scanFrom_unanchored placeholderRegex (fun _ _ => rfl) true]
    exact scan_placeholderRegex_marked rt doc h

theorem shiftPass_lits (w : Str) (ps : List (Piece Unit)) (queue : List (Option Str)) :
    shiftPass (w.map Piece.lit ++ ps) queue = w ++ shiftPass ps queue := by
  induction w with
  | nil => rfl
  | cons c w ih => simp [shiftPass, ih]

/-- The second `replace` on the pieces of a plain fragment. -/
theorem shiftPass_pieces (rt : Runtime) :
    ∀ (doc : List Segment) (queue : List (Option Str)),
      shiftPass (doc.flatMap (Segment.secondPieces rt)) queue = substituted rt doc queue := by
  intro doc
  induction doc with
  | nil => intro queue; rfl
  | cons seg doc ih =>
    intro queue
    rw [List.flatMap_cons]
    cases seg with
    | text s => simp only [Segment.secondPieces, shiftPass_lits, substituted, ih]
    | ref alt path =>
      by_cases hl : resolvesLocally rt path = true
      · simp only [Segment.secondPieces, hl, if_true, List.singleton_append, shiftPass,
          substituted, ih]
      · simp only [Segment.secondPieces, hl, Bool.false_eq_true, if_false, shiftPass_lits,
          substituted, ih]

theorem promiseAll_slots {α : Type} (values : List α) :
    ∀ (order : List Nat) (slots : List (Option α)), slots.length = values.length →
      (order.foldl (fun acc i => acc.set i values[i]?) slots).length = values.length ∧
      ∀ j, j < values.length →
        (order.foldl (fun acc i => acc.set i values[i]?) slots)[j]? =
          if j ∈ order then some values[j]? else slots[j]? := by
  intro order
  induction order with
  | nil => intro slots h; simp [h]
  | cons i order ih =>
    intro slots h
    have hlen : (slots.set i values[i]?).length = values.length := by simp [h]
    obtain ⟨h1, h2⟩ := ih (slots.set i values[i]?) hlen
    refine ⟨by simpa using h1, ?_⟩
    intro j hj
    simp only [List.foldl_cons]
    rw [h2 j hj]
    by_cases hjo : j ∈ order
    · simp [hjo]
    · simp only [hjo, if_false, List.mem_cons, or_false]
      by_cases hji : j = i
      · subst hji
        simp [List.getElem?_set, h, hj]
      · have hij : ¬ i = j := fun e => hji e.symm
        simp [List.getElem?_set, hji, hij]

/-- The values array of `Promise.all` holds the values in the order of the
promises, whatever the order in which they settle. -/
theorem promiseAll_perm {α : Type} (values : List α) (order : List Nat)
    (h : order.Perm (List.range values.length)) :
    promiseAll values order = values.map some := by
  obtain ⟨h1, h2⟩ := promiseAll_slots values order (List.replicate values.length none) (by simp)
  apply List.ext_getElem?
  intro j
  by_cases hj : j < values.length
  · unfold promiseAll
    rw [h2 j hj]
    have : j ∈ order := h.symm.subset (List.mem_range.mpr hj)
    simp [this, hj]
  · have hj1 : (promiseAll values order).length ≤ j := by
      unfold promiseAll; rw [h1]; omega
    have hj2 : (values.map some).length ≤ j := by simp; omega
    rw [List.getElem?_eq_none hj1, List.getElem?_eq_none hj2]

/-- On every fragment the image substitution is the same for all orders in
which the transcodes settle. -/
theorem substituteWith_order (rt : Runtime) (results : List Str) (order : List Nat)
    (horder : order.Perm (List.range results.length)) (htmlContent : Str) :
    substituteWith rt results order htmlContent =
      substituteWith rt results (List.range results.length) htmlContent := by
  unfold substituteWith
  rw [promiseAll_perm _ _ horder, promiseAll_perm _ _ (List.Perm.refl _)]

theorem scheduledPaths_lits (rt : Runtime) (w : Str) (ps : List (Piece (Str × Str))) :
    scheduledPaths rt (w.map Piece.lit ++ ps) = scheduledPaths rt ps := by
  induction w with
  | nil => rfl
  | cons c w ih => simpa [scheduledPaths] using ih

theorem scheduledPaths_pieces (rt : Runtime) (doc : List Segment) :
    scheduledPaths rt (doc.flatMap Segment.firstPieces) = localPaths rt doc := by
  induction doc with
  | nil => rfl
  | cons seg doc ih =>
    rw [List.flatMap_cons]
    cases seg with
    | text s => simp only [Segment.firstPieces, scheduledPaths_lits, localPaths, ih]
    | ref alt path =>
      simp [Segment.firstPieces, scheduledPaths, localPaths, resolvesLocally, ih]

/-- On a fragment on which both patterns meet exactly the references, for any
list of transcode results and any order of completion, the two passes put the
`i`-th result into the `i`-th reference that resolves locally and leave
everything else unchanged. -/
theorem substituteWith_aligned (rt : Runtime) (doc : List Segment) (hdoc : Aligned rt doc)
    (results : List Str) (order : List Nat)
    (horder : order.Perm (List.range results.length)) :
    substituteWith rt results order (sourceOf doc) = substituted rt doc (results.map some) := by
  unfold substituteWith replaceAll
  dsimp only
  rw [hdoc.1, firstPass_source, hdoc.2, shiftPass_pieces, promiseAll_perm _ _ horder]

theorem substituted_outcome (rt : Runtime) (doc : List Segment) :
    substituted rt doc (((localPaths rt doc).map (processImage rt)).map
      Transcode.result |>.map some) = doc.flatMap (Segment.outcome rt) := by
  induction doc with
  | nil => rfl
  | cons seg doc ih =>
    rw [List.flatMap_cons]
    cases seg with
    | text s => simp only [substituted, localPaths, Segment.outcome, ih]
    | ref alt path =>
      by_cases hl : resolvesLocally rt path = true
      · simp only [List.map_map] at ih
        simp [substituted, localPaths, hl, Segment.outcome, Option.join, ih, textOf]
      · simp only [substituted, localPaths, hl, Bool.false_eq_true, if_false, Segment.outcome,
          ih]

/-- On a fragment on which both patterns meet exactly the references, the
image substitution of `generatePosts` replaces each reference that resolves
locally by `![](result)` with the result of its own transcode, and leaves
everything else unchanged. -/
theorem substituteImages_aligned (rt : Runtime) (doc : List Segment) (hdoc : Aligned rt doc) :
    (substituteImages rt (sourceOf doc)).1 = doc.flatMap (Segment.outcome rt) := by
  unfold substituteImages
  simp only
  rw [substituteWith_aligned rt doc hdoc _ _
    (by simpa using (rt.completion ((scheduledPaths rt (scan imageRegex (sourceOf doc))).map
      (processImage rt)).length).2)]
  rw [hdoc.1, scheduledPaths_pieces]
  exact substituted_outcome rt doc

/-- The fragment `<p>See [1]. <code>![a](pic.png)</code></p>`, whose text holds
brackets, is plain. -/
theorem plainDoc_bracket_text :
    PlainDoc exampleRuntime
      [Segment.text (utf16 "<p>See [1]. <code>"), Segment.ref (utf16 "a") (utf16 "pic.png"),
        Segment.text (utf16 "</code></p>")] :=
  ⟨noRefStart_of_no_bang _ _ (by decide), by decide, by decide, by decide,
    fun h => absurd h (by decide), noRefStart_of_no_bang _ _ (by decide), trivial⟩

theorem processImage_fails (rt : Runtime) (imagePath : Str) (h : TranscodeFails rt imagePath) :
    processImage rt imagePath = { result := imagePath, written := [] } := by
  unfold processImage
  rcases h with h | ⟨buffer, h1, h2⟩
  · simp only [h]
  · simp only [h1, h2, Bool.false_eq_true, if_false]

/-- On a fragment on which both patterns meet exactly the references, a
reference that resolves locally and whose transcode fails ends up as
`![](p)`, where `p` is the path joined onto the content directory. -/
theorem substituteImages_failed (rt : Runtime) (doc : List Segment) (hdoc : Aligned rt doc) :
    (substituteImages rt (sourceOf doc)).1 = doc.flatMap (Segment.outcome rt) ∧
    ∀ alt path, resolvesLocally rt path = true →
      TranscodeFails rt (rt.pathJoin [contentDir rt, path]) →
      (Segment.ref alt path).outcome rt =
        utf16 "![](" ++ rt.pathJoin [contentDir rt, path] ++ utf16 ")" := by
  refine ⟨substituteImages_aligned rt doc hdoc, ?_⟩
  intro alt path hl hf
  have hf2 : TranscodeFails rt (fullImagePath rt path) := hf
  simp only [Segment.outcome, hl, if_true, processImage_fails rt _ hf2]
  rfl

/-- C7 (failing input): the content directory holds `pic.png`, which `sharp`
fails to transcode.  `processImage` does not propagate the failure: it returns
the path it was given, and the item is processed to the end.  But that path is
the path joined onto the content directory, so the reference `![a](pic.png)`
of the fragment `<p>![a](pic.png)</p>` ends up carrying
`/site/content/pic.png`, not the path `pic.png` written in the document. -/
theorem fallback_path_joined :
    resolvesLocally exampleRuntime (utf16 "pic.png") = true ∧
    TranscodeFails exampleRuntime (fullImagePath exampleRuntime (utf16 "pic.png")) ∧
    processImage exampleRuntime (fullImagePath exampleRuntime (utf16 "pic.png")) =
      { result := utf16 "/site/content/pic.png", written := [] } ∧
    (substituteImages exampleRuntime (utf16 "<p>![a](pic.png)</p>")).1 =
      utf16 "<p>![](/site/content/pic.png)</p>" ∧
    (substituteImages exampleRuntime (utf16 "<p>![a](pic.png)</p>")).1 ≠
      utf16 "<p>![](pic.png)</p>" ∧
    (substituteImages exampleRuntime (utf16 "<p>![a](pic.png)</p>")).1 ≠
      utf16 "<p>![a](pic.png)</p>" :=
  ⟨by decide, Or.inr ⟨[2], by decide, by decide⟩, by decide, by decide, by decide, by decide⟩

/-- C3 (failing input): the content directory holds `my photo.png`.  In the
first fragment the reference `![a](processing...)` does not resolve locally and
`![b](my photo.png)` does; the second pass takes the former for a placeholder,
so it receives the transcode result of the latter, which receives `undefined`.
In the second fragment the reference `![a](x![b)` does not resolve locally and
loses its end, with the text up to the next reference, to the placeholder of
that reference. -/
theorem placeholder_collision :
    resolvesLocally exampleRuntime (utf16 "processing...") = false ∧
    resolvesLocally exampleRuntime (utf16 "my photo.png") = true ∧
    (processImage exampleRuntime (fullImagePath exampleRuntime (utf16 "my photo.png"))).result =
      utf16 "/images/my-photo.webp" ∧
    (substituteImages exampleRuntime
        (utf16 "<p><code>![a](processing...)</code> ![b](my photo.png)</p>")).1 =
      utf16 "<p><code>![](/images/my-photo.webp)</code> ![](undefined)</p>" ∧
    (substituteImages exampleRuntime
        (utf16 "<p><code>![a](processing...)</code> ![b](my photo.png)</p>")).1 ≠
      utf16 "<p><code>![a](processing...)</code> ![](/images/my-photo.webp)</p>" ∧
    resolvesLocally exampleRuntime (utf16 "x![b") = false ∧
    (substituteImages exampleRuntime
        (utf16 "<p><code>![a](x![b)</code> ![c](my photo.png)</p>")).1 =
      utf16 "<p><code>![a](x![](/images/my-photo.webp)</p>" ∧
    (substituteImages exampleRuntime
        (utf16 "<p><code>![a](x![b)</code> ![c](my photo.png)</p>")).1 ≠
      utf16 "<p><code>![a](x![b)</code> ![](/images/my-photo.webp)</p>" := by
  decide

/-! ## Theorems: the run (C4, C5) -/

theorem generateItems_cons_ok (rt : Runtime) (item : ContentFile) (items : List ContentFile)
    (acc : List Post) (written : List Artifact) (post : Post)
    (hc : endsWith (utf16 ".md") item.file = true)
    (hp : processItem rt item = (written, Except.ok post)) :
    generateItems rt (item :: items) acc =
      (written ++ (generateItems rt items (acc ++ [post])).1,
        (generateItems rt items (acc ++ [post])).2) := by
  simp only [generateItems, hc, if_true, hp]

theorem generateItems_cons_error (rt : Runtime) (item : ContentFile) (items : List ContentFile)
    (acc : List Post) (written : List Artifact) (e : Failure)
    (hc : endsWith (utf16 ".md") item.file = true)
    (hp : processItem rt item = (written, Except.error e)) :
    generateItems rt (item :: items) acc = (written, Except.error e) := by
  simp only [generateItems, hc, if_true, hp]

theorem generateItems_cons_skip (rt : Runtime) (item : ContentFile) (items : List ContentFile)
    (acc : List Post) (hc : ¬ endsWith (utf16 ".md") item.file = true) :
    generateItems rt (item :: items) acc = generateItems rt items acc := by
  simp [generateItems, hc]

/-- Once the loop has thrown, later directory entries do not matter. -/
theorem generateItems_error_append (rt : Runtime) (ys : List ContentFile) :
    ∀ (xs : List ContentFile) (acc : List Post) (e : Failure),
      (generateItems rt xs acc).2 = Except.error e →
      generateItems rt (xs ++ ys) acc = generateItems rt xs acc := by
  intro xs
  induction xs with
  | nil =>
    intro acc e h
    simp [generateItems] at h
  | cons item xs ih =>
    intro acc e h
    rw [List.cons_append]
    by_cases hc : endsWith (utf16 ".md") item.file = true
    · rcases hp : processItem rt item with ⟨written, _ | post⟩
      · rw [generateItems_cons_error rt item _ acc written _ hc hp,
          generateItems_cons_error rt item _ acc written _ hc hp]
      · rw [generateItems_cons_ok rt item _ acc written post hc hp] at h ⊢
        rw [generateItems_cons_ok rt item _ acc written post hc hp, ih _ e h]
    · rw [generateItems_cons_skip rt item _ acc hc] at h ⊢
      rw [generateItems_cons_skip rt item _ acc hc]
      exact ih acc e h

/-- When the loop completes on the first entries, it goes on with the rest. -/
theorem generateItems_ok_append (rt : Runtime) (ys : List ContentFile) :
    ∀ (xs : List ContentFile) (acc posts : List Post),
      (generateItems rt xs acc).2 = Except.ok posts →
      generateItems rt (xs ++ ys) acc =
        ((generateItems rt xs acc).1 ++ (generateItems rt ys posts).1,
          (generateItems rt ys posts).2) := by
  intro xs
  induction xs with
  | nil =>
    intro acc posts h
    simp only [generateItems, Except.ok.injEq] at h
    subst h
    simp [generateItems]
  | cons item xs ih =>
    intro acc posts h
    rw [List.cons_append]
    by_cases hc : endsWith (utf16 ".md") item.file = true
    · rcases hp : processItem rt item with ⟨written, _ | post⟩
      · rw [generateItems_cons_error rt item _ acc written _ hc hp] at h
        cases h
      · rw [generateItems_cons_ok rt item _ acc written post hc hp] at h ⊢
        rw [generateItems_cons_ok rt item _ acc written post hc hp, ih _ posts h]
        simp only [List.append_assoc]
    · rw [generateItems_cons_skip rt item _ acc hc] at h ⊢
      rw [generateItems_cons_skip rt item _ acc hc]
      exact ih acc posts h

theorem postPageFiles_images (images : List Str) :
    postPageFiles (images.map Artifact.image) = [] := by
  induction images with
  | nil => rfl
  | cons x l ih => simp [postPageFiles, Artifact.postPageFile]

theorem postPageFiles_append (a b : List Artifact) :
    postPageFiles (a ++ b) = postPageFiles a ++ postPageFiles b := by
  simp [postPageFiles]

/-- Whatever the content items are, the loop writes only images and post
pages, and the post pages it writes are those of an initial run of the content
items, in order. -/
theorem generateItems_written (rt : Runtime) :
    ∀ (items : List ContentFile) (acc : List Post),
      (∀ a ∈ (generateItems rt items acc).1, a.isItemOutput = true) ∧
      ∃ k, postPageFiles (generateItems rt items acc).1 =
        ((items.filter isContent).map (postPageOf rt)).take k := by
  intro items
  induction items with
  | nil =>
    intro acc
    exact ⟨by simp [generateItems], 0, by simp [generateItems, postPageFiles]⟩
  | cons item items ih =>
    intro acc
    by_cases hc : isContent item = true
    · have hc2 : endsWith (utf16 ".md") item.file = true := hc
      rcases processItem_cases rt item with ⟨images, e, he⟩ | ⟨images, values, post, he, _⟩
      · rw [generateItems_cons_error rt item items acc _ e hc2 he]
        refine ⟨?_, 0, ?_⟩
        · intro a ha
          simp only [List.mem_map] at ha
          obtain ⟨x, _, rfl⟩ := ha
          rfl
        · simp [postPageFiles_images]
      · rw [generateItems_cons_ok rt item items acc _ post hc2 he]
        obtain ⟨h1, k, h2⟩ := ih (acc ++ [post])
        refine ⟨?_, k + 1, ?_⟩
        · intro a ha
          simp only [List.mem_append, List.mem_map, List.mem_singleton] at ha
          rcases ha with (⟨x, _, rfl⟩ | rfl) | ha
          · rfl
          · rfl
          · exact h1 a ha
        · simp only [postPageFiles_append, postPageFiles_images, List.nil_append, h2,
            List.filter_cons, hc, if_true, List.map_cons, List.take_succ_cons]
          rfl
    · have hc2 : ¬ endsWith (utf16 ".md") item.file = true := hc
      rw [generateItems_cons_skip rt item items acc hc2]
      obtain ⟨h1, k, h2⟩ := ih acc
      refine ⟨h1, k, ?_⟩
      simp only [List.filter_cons, hc, if_false]
      exact h2

/-- The loop over content items all of which have complete metadata: it
completes, and it writes the post page of each of them, in order. -/
theorem generateItems_before (rt : Runtime) :
    ∀ (before : List ContentFile) (acc : List Post),
      (∀ item ∈ before, isContent item = true → Complete rt item.frontmatter) →
      ∃ posts,
        (generateItems rt before acc).2 = Except.ok posts ∧
        postPageFiles (generateItems rt before acc).1 =
          (before.filter isContent).map (postPageOf rt) := by
  intro before
  induction before with
  | nil =>
    intro acc _
    exact ⟨acc, rfl, rfl⟩
  | cons item before ih =>
    intro acc h
    have hrest : ∀ it ∈ before, isContent it = true → Complete rt it.frontmatter :=
      fun it hit => h it (by simp [hit])
    by_cases hc : isContent item = true
    · obtain ⟨⟨title, ht⟩, ⟨d, h1⟩, ⟨a, h2⟩, ⟨k, h3⟩, ⟨f, h4⟩, ⟨time, hd⟩⟩ := h item (by simp) hc
      have hc2 : endsWith (utf16 ".md") item.file = true := hc
      have hp := processItem_ok rt item title d a k f time ht h1 h2 h3 h4 hd
      obtain ⟨posts, hok, hfiles⟩ := ih (acc ++ [_]) hrest
      rw [generateItems_cons_ok rt item before acc _ _ hc2 hp]
      refine ⟨posts, hok, ?_⟩
      simp only [postPageFiles_append, postPageFiles_images, List.nil_append, hfiles,
        List.filter_cons, hc, if_true, List.map_cons]
      rfl
    · have hc2 : ¬ endsWith (utf16 ".md") item.file = true := hc
      obtain ⟨posts, hok, hfiles⟩ := ih acc hrest
      rw [generateItems_cons_skip rt item before acc hc2]
      refine ⟨posts, hok, ?_⟩
      simp only [List.filter_cons, hc, if_false]
      exact hfiles

/-- A run over a sequence with a title-less content item ends with status 1,
having written what the loop wrote for the entries before that item. -/
theorem main_missing_title (rt : Runtime) (before after : List ContentFile)
    (untitled : ContentFile) (hcontent : isContent untitled = true)
    (htitle : untitled.frontmatter.title = none) :
    main rt (before ++ untitled :: after) =
      { exitCode := 1, written := (generateItems rt before []).1 } := by
  have hc2 : endsWith (utf16 ".md") untitled.file = true := hcontent
  have hno : ∀ title, untitled.frontmatter.title ≠ some (Value.text title) := by
    intro title h
    rw [htitle] at h
    cases h
  have hgen : ∃ e, generateItems rt (before ++ untitled :: after) [] =
      ((generateItems rt before []).1, Except.error e) := by
    rcases hb : (generateItems rt before []).2 with e | posts
    · refine ⟨e, ?_⟩
      rw [generateItems_error_append rt _ before [] e hb]
      exact Prod.ext rfl hb
    · refine ⟨Failure.slugStep, ?_⟩
      rw [generateItems_ok_append rt _ before [] posts hb,
        generateItems_cons_error rt untitled after posts [] _ hc2
          (processItem_no_title rt untitled hno)]
      simp
  obtain ⟨e, hgen⟩ := hgen
  simp only [main, generatePosts, hgen]

/-- C4 (counterexample): the first item has a title and no date, the second
has no title; the run aborts on the first item and writes no post page, also
not for the item that precedes the title-less one.  The same happens when the
first item has the number `2024` as its title. -/
theorem missing_title_counterexample :
    main exampleRuntime
        [exampleItem "a.md" (some "A") none, exampleItem "b.md" none (some "2024-01-05")] =
      { exitCode := 1, written := [] } ∧
    postPageFiles
        (main exampleRuntime
          [exampleItem "a.md" (some "A") none,
            exampleItem "b.md" none (some "2024-01-05")]).written ≠
      [postPageOf exampleRuntime (exampleItem "a.md" (some "A") none)] ∧
    main exampleRuntime
        [{ file := utf16 "a.md"
           frontmatter :=
             { title := some exampleNumber, date := some (Value.text (utf16 "2024-01-05")),
               author := none, description := none, keywords := none, featuredImage := none }
           content := [] },
          exampleItem "b.md" none (some "2024-01-05")] =
      { exitCode := 1, written := [] } := by
  decide

/-- C4 (amended): when a content item has no title, the run ends with exit
status 1; nothing is written but transcoded images and post pages (no listing
page, manifest, sitemap or robots file); the post pages written are those of
an initial run of the content items that precede the title-less item, so none
is written for that item or for a later one; and they are exactly the pages of
the preceding content items when each of those has complete metadata (a title
that is a string, a date with a valid time value, values that convert to
text). -/
theorem missing_title_aborts (rt : Runtime) (before after : List ContentFile)
    (untitled : ContentFile) (hcontent : isContent untitled = true)
    (htitle : untitled.frontmatter.title = none) :
    (main rt (before ++ untitled :: after)).exitCode = 1 ∧
    (∀ a ∈ (main rt (before ++ untitled :: after)).written, a.isItemOutput = true) ∧
    (∃ k, postPageFiles (main rt (before ++ untitled :: after)).written =
      ((before.filter isContent).map (postPageOf rt)).take k) ∧
    ((∀ item ∈ before, isContent item = true → Complete rt item.frontmatter) →
      postPageFiles (main rt (before ++ untitled :: after)).written =
        (before.filter isContent).map (postPageOf rt)) := by
  rw [main_missing_title rt before after untitled hcontent htitle]
  obtain ⟨h1, h2⟩ := generateItems_written rt before []
  refine ⟨rfl, h1, h2, ?_⟩
  intro hbefore
  obtain ⟨posts, _, hfiles⟩ := generateItems_before rt before [] hbefore
  exact hfiles

/-- C4 (witness): an item with title and date, then a title-less item, then
another item. -/
theorem missing_title_aborts_witness :
    postPageFiles
        (main exampleRuntime
          ([exampleItem "a.md" (some "A") (some "2024-01-05")] ++
            exampleItem "b.md" none (some "2024-01-05") ::
              [exampleItem "c.md" (some "C") (some "2024-02-01")])).written =
      ([exampleItem "a.md" (some "A") (some "2024-01-05")].filter isContent).map
        (postPageOf exampleRuntime) :=
  (missing_title_aborts exampleRuntime [exampleItem "a.md" (some "A") (some "2024-01-05")]
    [exampleItem "c.md" (some "C") (some "2024-02-01")]
    (exampleItem "b.md" none (some "2024-01-05")) (by decide) rfl).2.2.2
    (by
      intro item hitem _
      simp only [List.mem_singleton] at hitem
      subst hitem
      exact ⟨⟨_, rfl⟩, ⟨_, rfl⟩, ⟨_, rfl⟩, ⟨_, rfl⟩, ⟨_, rfl⟩, ⟨1704412800000, by decide⟩⟩)

/-- C5 (counterexample): a content item with a title and no date makes
`toISOString` throw; no post is pushed, no page is written and the run ends
with exit status 1. -/
theorem missing_date_counterexample :
    processItem exampleRuntime (exampleItem "a.md" (some "A") none) =
      ([], Except.error Failure.templateStep) ∧
    main exampleRuntime [exampleItem "a.md" (some "A") none] =
      { exitCode := 1, written := [] } :=
  ⟨rfl, by decide⟩

/-- C5 (amended): a content item whose title is a string, whose date has a
valid time value and whose other metadata values convert to text (as they do
when author, description, keywords and featuredImage are absent) is processed
to the end, yielding a post page and a Post record; absent keywords fall back
to the empty string and an absent featuredImage to the configured default image
path.  An absent title is not the only metadata condition that ends the
loop: a title that is not a string ends it too, and so does a date without a
valid time value. -/
theorem processItem_optional_fields (rt : Runtime) (item : ContentFile) (title : Str)
    (time : Int) (ht : item.frontmatter.title = some (Value.text title))
    (hd : timeOf rt item.frontmatter.date = some time)
    (hdescription : ∃ description, shownOf item.frontmatter.description = some description)
    (hauthor : ∃ author, shownOf item.frontmatter.author = some author)
    (hkeywords : ∃ keywords, orElse item.frontmatter.keywords [] = some keywords)
    (himage : ∃ image, orElse item.frontmatter.featuredImage defaultImage = some image) :
    (∃ values : PostValues,
      processItem rt item =
        ((substituteImages rt (rt.marked item.content)).2.map Artifact.image ++
            [Artifact.postPage (postPageOf rt item) values],
          Except.ok
            { title := title, date := item.frontmatter.date,
              slug := slugify rt.toLowerCase title,
              path := postPath (slugify rt.toLowerCase title) }) ∧
      values.title = title ∧ values.isoDate = time ∧
      values.content = (substituteImages rt (rt.marked item.content)).1 ∧
      orElse item.frontmatter.keywords [] = some values.keywords ∧
      orElse item.frontmatter.featuredImage defaultImage = some values.featuredImage ∧
      (item.frontmatter.keywords = none → values.keywords = []) ∧
      (item.frontmatter.featuredImage = none →
        values.featuredImage = utf16 "/images/default-featured.jpg")) ∧
    (∀ other : ContentFile, (∀ t, other.frontmatter.title ≠ some (Value.text t)) →
      processItem rt other = ([], Except.error Failure.slugStep)) ∧
    (∀ (other : ContentFile) (t : Str), other.frontmatter.title = some (Value.text t) →
      timeOf rt other.frontmatter.date = none →
      processItem rt other =
        ((substituteImages rt (rt.marked other.content)).2.map Artifact.image,
          Except.error Failure.templateStep)) := by
  obtain ⟨d, h1⟩ := hdescription
  obtain ⟨a, h2⟩ := hauthor
  obtain ⟨k, h3⟩ := hkeywords
  obtain ⟨f, h4⟩ := himage
  refine ⟨⟨_, processItem_ok rt item title d a k f time ht h1 h2 h3 h4 hd, rfl, rfl, rfl, h3, h4,
    ?_, ?_⟩, fun other h => processItem_no_title rt other h,
    fun other t hto hdo => processItem_no_date rt other t hto hdo⟩
  · intro hk
    rw [hk] at h3
    simp only [orElse, Option.some.injEq] at h3
    exact h3.symm
  · intro hf
    rw [hf] at h4
    simp only [orElse, Option.some.injEq] at h4
    rw [← h4]
    rfl

/-- C5 (witness): an item with a title and a date and no other metadata. -/
theorem processItem_optional_fields_witness :
    ∃ values : PostValues,
      processItem exampleRuntime (exampleItem "a.md" (some "A") (some "2024-01-05")) =
        ([Artifact.postPage (utf16 "/site/public/posts/a.html") values],
          Except.ok
            { title := utf16 "A", date := some (Value.text (utf16 "2024-01-05")),
              slug := utf16 "a", path := utf16 "/posts/a" }) ∧
      values.keywords = [] ∧ values.featuredImage = utf16 "/images/default-featured.jpg" :=
  (processItem_optional_fields exampleRuntime
    (exampleItem "a.md" (some "A") (some "2024-01-05")) (utf16 "A") 1704412800000 rfl
    (by decide) ⟨_, rfl⟩ ⟨_, rfl⟩ ⟨_, rfl⟩ ⟨_, rfl⟩).1.elim
    fun values h => ⟨values, h.1, h.2.2.2.2.2.2.1 rfl, h.2.2.2.2.2.2.2 rfl⟩

end ByteLog
